import Mathlib

/-!
# Verification of the task-scheduler metaheuristic optimizers

Shallow embedding of the population-based optimizers of this repository:
the four-leader swarm driver (`runChoaAlgorithm` and its helpers) and the
generational genetic-algorithm driver (`GeneticAlgorithm` / `geneticAlgorithm`
with `Chromosome` and `PopulationGA`).

Modelling conventions:
* JavaScript numbers are modelled by exact rationals (`ℚ`); the IEEE
  infinities used as sentinels (`Infinity`, `-Infinity`) are modelled by the
  three-valued type `Fitness` below, and a `NaN` gene (which the swarm driver
  can produce by indexing past an empty sentinel leader chromosome) is
  modelled by `none` in `Gene := Option ℤ`.
* `Math.random()` is modelled by an ambient stream `rng : ℕ → ℚ` of draws,
  consumed in call order; an index into the stream is threaded explicitly.
* `Math.pow(x, 1/3)` (a double-valued, hence rational-valued, operation) is
  modelled by an ambient function `pow13 : ℕ → ℚ`.
* JavaScript's in-place `Array.prototype.sort` with a numeric comparator is
  a stable sort; it is modelled by the stable insertion sort `sortOrd`
  (for the infinite-minus-infinite comparator results, `NaN` is treated as 0
  by the sort, i.e. as "equal", which the total order on `Fitness` matches).
-/

/-- IEEE-double value as used for fitness bookkeeping: `-Infinity`, a finite
value, or `Infinity`. -/
inductive Fitness where
  | negInf : Fitness
  | fin    : ℚ → Fitness
  | inf    : Fitness
deriving DecidableEq, Repr

namespace Fitness

/-- The strict `<` of JavaScript on these values. -/
def blt : Fitness → Fitness → Bool
  | negInf, negInf => false
  | negInf, _      => true
  | fin _,  negInf => false
  | fin a,  fin b  => a < b
  | fin _,  inf    => true
  | inf,    _      => false

/-- `a < b` as a proposition. -/
def lt (a b : Fitness) : Prop := blt a b = true

/-- `a ≤ b`, i.e. `¬ (b < a)`. -/
def le (a b : Fitness) : Prop := blt b a = false

instance (a b : Fitness) : Decidable (lt a b) := by unfold lt; infer_instance
instance (a b : Fitness) : Decidable (le a b) := by unfold le; infer_instance

theorem le_refl (a : Fitness) : le a a := by
  cases a <;> simp [le, blt]

theorem le_of_lt {a b : Fitness} (h : lt a b) : le a b := by
  cases a <;> cases b <;> simp_all [lt, le, blt] <;> linarith

theorem le_trans {a b c : Fitness} (hab : le a b) (hbc : le b c) : le a c := by
  cases a <;> cases b <;> cases c <;> simp_all [le, blt] <;> linarith

theorem not_lt_of_le {a b : Fitness} (h : le a b) : ¬ lt b a := by
  simp [le] at h; simp [lt, h]

theorem le_of_not_lt {a b : Fitness} (h : ¬ lt b a) : le a b := by
  simp [lt] at h; simp [le, h]

theorem lt_irrefl (a : Fitness) : ¬ lt a a := by
  cases a <;> simp [lt, blt]

/-- Every value computed by a fitness evaluator (`fin` or `negInf`) is
strictly below the `Infinity` sentinel. -/
theorem lt_inf_of_ne_inf {a : Fitness} (h : a ≠ inf) : lt a inf := by
  cases a <;> simp_all [lt, blt]

end Fitness

/-! ## Stable sort (model of `Array.prototype.sort` with a numeric comparator)

`sortOrd keep l` processes `l` left to right; each element is inserted after
every already-placed element `x` with `keep x c = true`.  With
`keep x c = (x ≤ c)` under the comparator's order this is exactly a stable
sort for that comparator. -/

/-- Insert `c` after every prefix element that the comparator keeps before it. -/
def insertOrd {α : Type} (keep : α → α → Bool) (c : α) : List α → List α
  | [] => [c]
  | x :: xs => if keep x c then x :: insertOrd keep c xs else c :: x :: xs

/-- Stable sort by the `keep` relation (see `sortOrd` header comment). -/
def sortOrd {α : Type} (keep : α → α → Bool) (l : List α) : List α :=
  l.foldl (fun acc c => insertOrd keep c acc) []

theorem insertOrd_perm {α : Type} (keep : α → α → Bool) (c : α) :
    ∀ l : List α, (insertOrd keep c l).Perm (c :: l) := by
  intro l
  induction l with
  | nil => simp [insertOrd]
  | cons x xs ih =>
      by_cases h : keep x c = true
      · simp only [insertOrd, h, if_true]
        exact ((ih.cons x).trans (List.Perm.swap c x xs))
      · simp only [insertOrd, h]
        simp [h]

theorem sortOrd_perm {α : Type} (keep : α → α → Bool) (l : List α) :
    (sortOrd keep l).Perm l := by
  suffices h : ∀ (l acc : List α),
      (l.foldl (fun acc c => insertOrd keep c acc) acc).Perm (acc ++ l) by
    simpa using h l []
  intro l
  induction l with
  | nil => intro acc; simp
  | cons x xs ih =>
      intro acc
      simp only [List.foldl_cons]
      refine (ih (insertOrd keep x acc)).trans ?_
      have h1 : (insertOrd keep x acc ++ xs).Perm ((x :: acc) ++ xs) :=
        (insertOrd_perm keep x acc).append_right xs
      refine h1.trans ?_
      simp only [List.cons_append]
      exact (List.perm_middle).symm

theorem mem_sortOrd {α : Type} {keep : α → α → Bool} {l : List α} {a : α}
    (h : a ∈ sortOrd keep l) : a ∈ l :=
  (sortOrd_perm keep l).mem_iff.mp h

theorem sortOrd_length {α : Type} (keep : α → α → Bool) (l : List α) :
    (sortOrd keep l).length = l.length :=
  (sortOrd_perm keep l).length_eq

theorem sortOrd_ne_nil {α : Type} {keep : α → α → Bool} {l : List α}
    (h : l ≠ []) : sortOrd keep l ≠ [] := by
  intro hc
  apply h
  have := sortOrd_length keep l
  rw [hc] at this
  exact List.length_eq_zero.mp this.symm

/-! ## Max / min of a list of rationals (model of `Math.max(...)` / `Math.min(...)`
spread over the non-empty value list of an object) -/

/-- `Math.max(...l)` for a non-empty list (the empty case never feeds a result
in the modelled paths guarded by non-emptiness). -/
def maxOf (l : List ℚ) : ℚ := l.foldl max (l.headD 0)

/-- `Math.min(...l)` for a non-empty list. -/
def minOf (l : List ℚ) : ℚ := l.foldl min (l.headD 0)

theorem foldl_max_le_iff : ∀ (l : List ℚ) (a x : ℚ),
    a ≤ l.foldl max x ↔ a ≤ x ∨ ∃ y ∈ l, a ≤ y := by
  intro l
  induction l with
  | nil => intro a x; simp
  | cons b bs ih =>
      intro a x
      simp only [List.foldl_cons, ih, le_max_iff, List.mem_cons]
      constructor
      · rintro (⟨h | h⟩ | ⟨y, hy, h⟩)
        · exact Or.inl h
        · exact Or.inr ⟨b, Or.inl rfl, h⟩
        · exact Or.inr ⟨y, Or.inr hy, h⟩
      · rintro (h | ⟨y, hy | hy, h⟩)
        · exact Or.inl (Or.inl h)
        · exact Or.inl (Or.inr (hy ▸ h))
        · exact Or.inr ⟨y, hy, h⟩

theorem le_maxOf_of_mem {l : List ℚ} {a : ℚ} (h : a ∈ l) : a ≤ maxOf l := by
  unfold maxOf
  exact (foldl_max_le_iff l a (l.headD 0)).mpr (Or.inr ⟨a, h, le_rfl⟩)

theorem foldl_max_mem : ∀ (l : List ℚ) (x : ℚ), l.foldl max x = x ∨ l.foldl max x ∈ l := by
  intro l
  induction l with
  | nil => intro x; simp
  | cons b bs ih =>
      intro x
      simp only [List.foldl_cons, List.mem_cons]
      rcases ih (max x b) with h | h
      · rcases max_choice x b with hm | hm
        · exact Or.inl (h.trans hm)
        · exact Or.inr (Or.inl (h.trans hm))
      · exact Or.inr (Or.inr h)

theorem maxOf_mem {l : List ℚ} (h : l ≠ []) : maxOf l ∈ l := by
  unfold maxOf
  rcases foldl_max_mem l (l.headD 0) with h1 | h1
  · rw [h1]
    cases l with
    | nil => exact absurd rfl h
    | cons a as => simp
  · exact h1

theorem foldl_max_le : ∀ (l : List ℚ) (x b : ℚ), x ≤ b → (∀ y ∈ l, y ≤ b) →
    l.foldl max x ≤ b := by
  intro l
  induction l with
  | nil => intro x b hx _; simpa using hx
  | cons a as ih =>
      intro x b hx h
      simp only [List.foldl_cons]
      exact ih _ _ (max_le hx (h a (List.mem_cons_self a as)))
        (fun y hy => h y (List.mem_cons_of_mem a hy))

theorem maxOf_le {l : List ℚ} {b : ℚ} (h : l ≠ []) (hb : ∀ y ∈ l, y ≤ b) :
    maxOf l ≤ b := by
  unfold maxOf
  refine foldl_max_le l _ b ?_ hb
  apply hb
  cases l with
  | nil => exact absurd rfl h
  | cons a as => simp

/-! ## The swarm ("ChOA") driver — model of the four-leader swarm module

Source functions modelled here: `getRandomInt`, `createIndividual`,
`createInitialPopulation`, `chaos`, `calculateFitness`, `applyOBL`,
`updateFandCoefficients`, `updatePositions`, `evaluateFitness`,
`runChoaAlgorithm`. -/

namespace Choa

/-- A task record; the optimizer only reads the `weight` field. -/
structure Task where
  weight : String
deriving DecidableEq, Repr

instance : Inhabited Task := ⟨⟨""⟩⟩

/-- A gene of a chromosome: a worker index, or `none` for the IEEE `NaN`
(resp. `undefined`) that arithmetic over an empty sentinel leader chromosome
propagates into a proposed position. -/
abbrev Gene := Option ℤ

/-- One individual ("chimp"): a chromosome plus its bookkept fitness. -/
structure Chimp where
  chromosome : List Gene
  fitness : Fitness
deriving DecidableEq, Repr

instance : Inhabited Chimp := ⟨⟨[], .inf⟩⟩

/-- `WEIGHT_TO_MIPS[w] || 500`: the weight-tier → MIPS estimate, with the
`|| 500` default for an unrecognized tier. -/
def weightMips (w : String) : ℚ :=
  if w = "ringan" then 400 else if w = "sedang" then 500
  else if w = "berat" then 600 else 500

/-- `getRandomInt(min, max)` = `Math.floor(Math.random() * (max - min + 1)) + min`,
with the `Math.random()` draw taken at stream position `k`. -/
def getRandomInt (rng : ℕ → ℚ) (k : ℕ) (lo hi : ℤ) : ℤ :=
  ⌊rng k * ((hi : ℚ) - (lo : ℚ) + 1)⌋ + lo

/-- `createIndividual(taskCount, workerCount)`: a chromosome of `taskCount`
uniform draws from `[0, workerCount)`, fitness initialized to `Infinity`. -/
def createIndividual (rng : ℕ → ℚ) (k : ℕ) (taskCount : ℕ) (workerCount : ℤ) : Chimp :=
  { chromosome := (List.range taskCount).map
      (fun j => some (getRandomInt rng (k + j) 0 (workerCount - 1)))
    fitness := .inf }

/-- `createInitialPopulation(populationSize, taskCount, workerCount)`. -/
def createInitialPopulation (rng : ℕ → ℚ) (k : ℕ) (populationSize taskCount : ℕ)
    (workerCount : ℤ) : List Chimp :=
  (List.range populationSize).map
    (fun i => createIndividual rng (k + i * taskCount) taskCount workerCount)

/-- `chaos()`: the `nextX` computation is dead code; the returned value is the
constant `((0.7 + 1) * 1) / 2`. -/
def chaos : ℚ := ((7/10 : ℚ) + 1) * 1 / 2

/-- `execTime = 10000 / mips` (`cloudletLength` is the fixed 10000). -/
def execTimeOf (t : Task) : ℚ := 10000 / weightMips t.weight

/-- `cost = execTime * COST_PER_MIPS + 512 * COST_PER_RAM + BANDWIDTH_USAGE * COST_PER_BW`
with `COST_PER_MIPS = 0.5`, `COST_PER_RAM = 0.05`, `BANDWIDTH_USAGE = 1000`,
`COST_PER_BW = 0.1`. -/
def costOf (t : Task) : ℚ :=
  execTimeOf t * (1/2) + 512 * (1/20) + 1000 * (1/10)

/-- Accumulator for the `workerLoad` / `workerCost` dictionaries:
`assigned` is the key list of the object, `load`/`cost` give each key's
accumulated entry (0 for absent keys, matching `(workerLoad[w] || 0)`). -/
structure LoadAcc where
  assigned : List Gene
  load : Gene → ℚ
  cost : Gene → ℚ

/-- One `tasks.forEach` body iteration of `calculateFitness`: read
`individual.chromosome[i]`, accumulate `execTime` and `cost` into that
worker's dictionary entries.  An out-of-range index and a `NaN` gene both
land in the `none` bucket (in JS they are the distinct keys `"undefined"`
and `"NaN"`; no modelled property distinguishes them). -/
def calcStep (chrom : List Gene) (acc : LoadAcc) (it : ℕ × Task) : LoadAcc :=
  let w : Gene := (chrom.get? it.1).join
  let e := execTimeOf it.2
  let c := costOf it.2
  { assigned := if w ∈ acc.assigned then acc.assigned else acc.assigned ++ [w]
    load := fun x => if x = w then acc.load x + e else acc.load x
    cost := fun x => if x = w then acc.cost x + c else acc.cost x }

/-- The `tasks.forEach` accumulation loop of `calculateFitness`. -/
def foldAcc (chrom : List Gene) (tasks : List Task) : LoadAcc :=
  tasks.enum.foldl (calcStep chrom) ⟨[], fun _ => 0, fun _ => 0⟩

/-- `calculateFitness(individual, tasks)`: accumulate per-worker load and cost
over all tasks, then `fitness = Math.max(...loads) + sum(costs)`.  With no
tasks the dictionaries are empty and `Math.max()` is `-Infinity`, so the
returned fitness is `-Infinity` (modelled by `negInf`). -/
def calculateFitness (chrom : List Gene) (tasks : List Task) : Fitness :=
  let acc := foldAcc chrom tasks
  if acc.assigned.isEmpty then .negInf
  else .fin (maxOf (acc.assigned.map acc.load) + (acc.assigned.map acc.cost).sum)

/-- The mirror chromosome built inside `applyOBL`:
`individual.chromosome.map(gene => workerCount - 1 - gene)` (a `NaN` gene
stays `NaN`). -/
def oppositeChromosome (workerCount : ℤ) (chrom : List Gene) : List Gene :=
  chrom.map (Option.map (fun gene => workerCount - 1 - gene))

/-- Ascending-by-fitness stable sort, the model of
`combined.sort((a, b) => a.fitness - b.fitness)`. -/
def sortAscByFitness (l : List Chimp) : List Chimp :=
  sortOrd (fun x c => !(Fitness.blt c.fitness x.fitness)) l

/-- `applyOBL(population, taskCount, workerCount, tasks)`: build the opposite
of every individual, evaluate it, concatenate, sort ascending by fitness and
keep the best `population.length`. -/
def applyOBL (population : List Chimp) (workerCount : ℤ) (tasks : List Task) :
    List Chimp :=
  let oppositePopulation := population.map (fun individual =>
    let oc := oppositeChromosome workerCount individual.chromosome
    { chromosome := oc, fitness := calculateFitness oc tasks })
  let combined := population ++ oppositePopulation
  (sortAscByFitness combined).take population.length

/-- The decay coefficient and the four `(C1, C2)` pairs. -/
structure Coefficients where
  (f C1G1 C2G1 C1G2 C2G2 C1G3 C2G3 C1G4 C2G4 : ℚ)
deriving Repr

/-- `updateFandCoefficients(iter, iterations)`; `pow13 n` models the double
`Math.pow(n, 1/3)` (a rational, like every finite double).  Never called with
`iterations = 0` (the loop body guards it); the `q / 0 = 0` convention of `ℚ`
fills that unreachable case. -/
def updateFandCoefficients (pow13 : ℕ → ℚ) (iter iterations : ℕ) : Coefficients :=
  let f : ℚ := 2 - (iter : ℚ) * (2 / (iterations : ℚ))
  let C1G1 : ℚ := 39/20 - (2 * pow13 iter) / pow13 iterations
  let C2G1 : ℚ := (2 * pow13 iter) / pow13 iterations + 1/2
  let C1G2 := C1G1
  let C2G2 : ℚ := 2 * (iter : ℚ)^3 / (iterations : ℚ)^3 + 1/2
  let C1G3 : ℚ := -2 * (iter : ℚ)^3 / (iterations : ℚ)^3 + 5/2
  let C2G3 := C2G1
  let C1G4 := C1G3
  let C2G4 := C2G2
  ⟨f, C1G1, C2G1, C1G2, C2G2, C1G3, C2G3, C1G4, C2G4⟩

/-- `Math.round`: round half toward positive infinity. -/
def jsRound (q : ℚ) : ℤ := ⌊q + 1/2⌋

/-- One leader's candidate position `X = leaderGene - A * |C * leaderGene - m * cur|`;
`none` (IEEE `NaN`) when the leader gene or the current gene is missing. -/
def leaderTerm (m A C : ℚ) (leadG curG : Gene) : Option ℚ :=
  match leadG, curG with
  | some l, some c => some ((l : ℚ) - A * |C * (l : ℚ) - m * (c : ℚ)|)
  | _, _ => none

/-- The proposed value for gene `j` of a chimp: average the four leaders'
candidate positions, `Math.round`, then clamp into `[0, workerCount - 1]`.
`Math.max(0, Math.min(wc - 1, NaN))` is `NaN`, modelled by `none`. -/
def newPosAt (rng : ℕ → ℚ) (k : ℕ) (co : Coefficients) (workerCount : ℤ)
    (attacker barrier chaser driver cur : List Gene) (j : ℕ) : Gene :=
  let m := chaos
  let r11 := co.C1G1 * rng k
  let r12 := co.C2G1 * rng (k+1)
  let A1 := 2 * co.f * r11 - co.f
  let C1 := 2 * r12
  let r21 := co.C1G2 * rng (k+2)
  let r22 := co.C2G2 * rng (k+3)
  let A2 := 2 * co.f * r21 - co.f
  let C2 := 2 * r22
  let r31 := co.C1G3 * rng (k+4)
  let r32 := co.C2G3 * rng (k+5)
  let A3 := 2 * co.f * r31 - co.f
  let C3 := 2 * r32
  let r41 := co.C1G4 * rng (k+6)
  let r42 := co.C2G4 * rng (k+7)
  let A4 := 2 * co.f * r41 - co.f
  let C4 := 2 * r42
  let curG := (cur.get? j).join
  let X1 := leaderTerm m A1 C1 ((attacker.get? j).join) curG
  let X2 := leaderTerm m A2 C2 ((barrier.get? j).join) curG
  let X3 := leaderTerm m A3 C3 ((chaser.get? j).join) curG
  let X4 := leaderTerm m A4 C4 ((driver.get? j).join) curG
  X1.bind fun x1 => X2.bind fun x2 => X3.bind fun x3 => X4.map fun x4 =>
    max 0 (min (workerCount - 1) (jsRound ((x1 + x2 + x3 + x4) / 4)))

/-- The per-chimp body of `updatePositions`: build the proposed chromosome,
evaluate it, and adopt it only when its fitness strictly improves. -/
def updateChimp (rng : ℕ → ℚ) (k : ℕ) (co : Coefficients) (taskCount : ℕ)
    (workerCount : ℤ) (attacker barrier chaser driver : List Gene)
    (tasks : List Task) (chimp : Chimp) : Chimp :=
  let newChromosome := (List.range taskCount).map
    (fun j => newPosAt rng (k + 8*j) co workerCount attacker barrier chaser driver
      chimp.chromosome j)
  let newFitness := calculateFitness newChromosome tasks
  if Fitness.blt newFitness chimp.fitness then
    ⟨newChromosome, newFitness⟩
  else chimp

/-- `updatePositions(population, taskCount, workerCount, coefficients,
attacker, barrier, chaser, driver, tasks)`; each chimp consumes exactly
`8 * taskCount` draws, in population order. -/
def updatePositions (rng : ℕ → ℚ) (k : ℕ) (population : List Chimp)
    (taskCount : ℕ) (workerCount : ℤ) (co : Coefficients)
    (attacker barrier chaser driver : Chimp) (tasks : List Task) :
    List Chimp × ℕ :=
  ((List.range population.length).map (fun i =>
      updateChimp rng (k + i * (8 * taskCount)) co taskCount workerCount
        attacker.chromosome barrier.chromosome chaser.chromosome
        driver.chromosome tasks (population.getD i default)),
   k + population.length * (8 * taskCount))

/-- The four ranked leaders. -/
structure Bests where
  (attacker barrier chaser driver : Chimp)
deriving DecidableEq, Repr

/-- The per-individual body of `evaluateFitness`: recompute the individual's
fitness, then run the strict single-pass leader classification. -/
def evalOne (tasks : List Task) (bests : Bests) (individual : Chimp) :
    Chimp × Bests :=
  let ind : Chimp := { individual with
    fitness := calculateFitness individual.chromosome tasks }
  let b :=
    if Fitness.blt ind.fitness bests.attacker.fitness then
      { bests with attacker := ind }
    else if Fitness.blt bests.attacker.fitness ind.fitness &&
            Fitness.blt ind.fitness bests.barrier.fitness then
      { bests with barrier := ind }
    else if Fitness.blt bests.attacker.fitness ind.fitness &&
            Fitness.blt bests.barrier.fitness ind.fitness &&
            Fitness.blt ind.fitness bests.chaser.fitness then
      { bests with chaser := ind }
    else if Fitness.blt bests.attacker.fitness ind.fitness &&
            Fitness.blt bests.barrier.fitness ind.fitness &&
            Fitness.blt bests.chaser.fitness ind.fitness &&
            Fitness.blt ind.fitness bests.driver.fitness then
      { bests with driver := ind }
    else bests
  (ind, b)

/-- `evaluateFitness(population, tasks, currentBests)`: evaluate every
individual in order (mutating its stored fitness) and update the leader
slots with the strict `Java-like` comparisons. -/
def evaluateFitness (tasks : List Task) : List Chimp → Bests → List Chimp × Bests
  | [], b => ([], b)
  | individual :: rest, b =>
      let (ind', b') := evalOne tasks b individual
      let (rest', b'') := evaluateFitness tasks rest b'
      (ind' :: rest', b'')

/-- The initial leaders of `runChoaAlgorithm`:
`{ chromosome: [], fitness: Infinity }`. -/
def sentinelChimp : Chimp := ⟨[], .inf⟩

/-- One iteration of the main loop of `runChoaAlgorithm`. -/
def choaStep (rng pow13 : ℕ → ℚ) (taskCount : ℕ) (workerCount : ℤ)
    (tasks : List Task) (iterations : ℕ) (iter : ℕ)
    (st : List Chimp × Bests × ℕ) : List Chimp × Bests × ℕ :=
  let co := updateFandCoefficients pow13 iter iterations
  let (pop', k') := updatePositions rng st.2.2 st.1 taskCount workerCount co
    st.2.1.attacker st.2.1.barrier st.2.1.chaser st.2.1.driver tasks
  let (pop'', bests') := evaluateFitness tasks pop' st.2.1
  (pop'', bests', k')

/-- The main `for (iter = 0; iter < iterations; iter++)` loop. -/
def choaLoop (rng pow13 : ℕ → ℚ) (taskCount : ℕ) (workerCount : ℤ)
    (tasks : List Task) (iterations : ℕ) :
    ℕ → ℕ → (List Chimp × Bests × ℕ) → List Chimp × Bests × ℕ
  | _, 0, st => st
  | iter, n + 1, st =>
      choaLoop rng pow13 taskCount workerCount tasks iterations (iter + 1) n
        (choaStep rng pow13 taskCount workerCount tasks iterations iter st)

/-- `runChoaAlgorithm(taskCount, workerCount, tasks, iterations,
populationSize, useOBL)`: full driver; returns the attacker's chromosome. -/
def runChoaAlgorithm (rng pow13 : ℕ → ℚ) (taskCount : ℕ) (workerCount : ℤ)
    (tasks : List Task) (iterations populationSize : ℕ) (useOBL : Bool) :
    List Gene :=
  let population := createInitialPopulation rng 0 populationSize taskCount workerCount
  let k0 := populationSize * taskCount
  let evaluated := population.map (fun ind =>
    { ind with fitness := calculateFitness ind.chromosome tasks })
  let population1 := if useOBL then applyOBL evaluated workerCount tasks else evaluated
  let bests0 : Bests := ⟨sentinelChimp, sentinelChimp, sentinelChimp, sentinelChimp⟩
  let (population2, bests1) := evaluateFitness tasks population1 bests0
  let final := choaLoop rng pow13 taskCount workerCount tasks iterations 0 iterations
    (population2, bests1, k0)
  final.2.1.attacker.chromosome

/-- The driver with the `tasks` argument as the caller may actually supply it:
`none` models a missing / non-sequence value, on which the run crashes with a
`TypeError` at the first `tasks.forEach` — note this happens after
`createInitialPopulation` has already run.  Any sequence value, including the
empty one, completes normally. -/
def runChoaAlgorithmJs (rng pow13 : ℕ → ℚ) (taskCount : ℕ) (workerCount : ℤ)
    (tasksArg : Option (List Task)) (iterations populationSize : ℕ)
    (useOBL : Bool) : Except String (List Gene) :=
  match tasksArg with
  | none => .error "TypeError: tasks.forEach is not a function"
  | some tasks => .ok (runChoaAlgorithm rng pow13 taskCount workerCount tasks
      iterations populationSize useOBL)

end Choa

/-! ## The GA driver — model of `Chromosome`, `PopulationGA` and
`GeneticAlgorithm` (`ga.js`, `populationGA.js`, `individualGA.js`) -/

namespace GA

/-- A chromosome of the GA module (`Chromosome`: id, genes, fitness,
velocity).  The gene-wise accessors are never called out of range on the
driver paths, so genes are stored as plain integers here; the hole-faithful
accessors `getGene` / `setGene` below model the raw class contract. -/
structure Chrom where
  id : ℤ
  genes : List ℤ
  fitness : ℚ
  velocity : List ℚ
deriving DecidableEq, Repr

/-- `new Chromosome(undefined)`: id `-1`, empty genes and velocity,
fitness `0.0`. -/
instance : Inhabited Chrom := ⟨⟨-1, [], 0, []⟩⟩

/-- `Chromosome.withIdAndGenes(id, genes)`: fresh chromosome with the given
id and a copy of the genes; fitness `0.0`, zero velocity. -/
def withIdAndGenes (id : ℤ) (genes : List ℤ) : Chrom :=
  { id := id, genes := genes, fitness := 0,
    velocity := List.replicate genes.length 0 }

/-- A JS array of genes that may contain holes (`none` = `undefined`),
as produced by an out-of-range `setGene`. -/
abbrev GeneArray := List (Option ℤ)

/-- `Chromosome.getGene(index)` = `return this.genes[index]`: no bounds
check, an out-of-range index silently yields `undefined` (`none`). -/
def getGene (genes : GeneArray) (index : ℕ) : Option ℤ :=
  (genes.get? index).join

/-- `Chromosome.setGene(index, value)` = `this.genes[index] = value`: no
bounds check; writing past the end silently extends the array, filling the
gap with holes. -/
def setGene (genes : GeneArray) (index : ℕ) (value : ℤ) : GeneArray :=
  if index < genes.length then genes.set index (some value)
  else genes ++ List.replicate (index - genes.length) none ++ [some value]

/-- `GeneticAlgorithm.calcFitness(chromosome, dc)`: count the tasks assigned
to each worker that appears in the genes, then
`fitness = 1 / (maxLoad - minLoad + 1)`.  For an empty gene list the IEEE
evaluation `1 / (-Infinity - Infinity + 1)` yields `-0`, i.e. `0`. -/
def calcFitness (genes : List ℤ) : ℚ :=
  let loads := genes.dedup.map (fun g => (genes.count g : ℚ))
  if loads.isEmpty then 0 else 1 / (maxOf loads - minOf loads + 1)

/-- `Math.floor(Math.random() * n)` as a list index. -/
def randIndex (rng : ℕ → ℚ) (k n : ℕ) : ℕ := (⌊rng k * (n : ℚ)⌋).toNat

/-- One tournament of `selectParents`: three uniform draws with replacement,
keeping the strictly better candidate (`>`); the `-Infinity` initialization
makes the first candidate the provisional best unconditionally. -/
def tournamentPick (rng : ℕ → ℚ) (k : ℕ) (pop : List Chrom) : Chrom :=
  let c0 := pop.getD (randIndex rng k pop.length) default
  let c1 := pop.getD (randIndex rng (k+1) pop.length) default
  let b1 := if c0.fitness < c1.fitness then c1 else c0
  let c2 := pop.getD (randIndex rng (k+2) pop.length) default
  if b1.fitness < c2.fitness then c2 else b1

/-- `GeneticAlgorithm.crossover(parent1, parent2)`: one draw decides whether
to cross; crossing draws one more for the single point.  Gene positions are
written for `i < parent1.length` (both parents always carry the common
chromosome length `taskCount` on the modelled paths). -/
def crossover (rng : ℕ → ℚ) (k : ℕ) (pc : ℚ) (p1 p2 : Chrom) :
    Chrom × Chrom × ℕ :=
  let len1 := p1.genes.length
  let len2 := p2.genes.length
  if rng k < pc then
    let point : ℕ := (⌊rng (k+1) * (len1 : ℚ)⌋).toNat
    let g0 := (List.range len1).map (fun i =>
      if i < point then p1.genes.getD i 0 else p2.genes.getD i 0)
    let g1 := (List.range len1).map (fun i =>
      if i < point then p2.genes.getD i 0 else p1.genes.getD i 0)
    ({ id := p1.id, genes := g0, fitness := 0, velocity := List.replicate len1 0 },
     { id := p2.id, genes := g1, fitness := 0, velocity := List.replicate len2 0 },
     k + 2)
  else
    ({ id := p1.id, genes := p1.genes, fitness := 0, velocity := List.replicate len1 0 },
     { id := p2.id, genes := p2.genes, fitness := 0, velocity := List.replicate len2 0 },
     k + 1)

/-- `GeneticAlgorithm.mutate(offspring, dc)` acting on the gene list: per
gene, with probability `pm`, replace it by
`minPosition + Math.floor(Math.random() * (maxPosition - minPosition + 1))`
with `minPosition = (dc-1)*9`, `maxPosition = dc*9 - 1` — the fixed
9-wide datacenter window, independent of the worker count. -/
def mutateGenes (rng : ℕ → ℚ) (pm : ℚ) (dc : ℤ) : List ℤ → ℕ → List ℤ × ℕ
  | [], k => ([], k)
  | g :: gs, k =>
      if rng k < pm then
        let minPosition := (dc - 1) * 9
        let maxPosition := dc * 9 - 1
        let newValue := minPosition +
          ⌊rng (k+1) * ((maxPosition : ℚ) - (minPosition : ℚ) + 1)⌋
        let (rest, k') := mutateGenes rng pm dc gs (k+2)
        (newValue :: rest, k')
      else
        let (rest, k') := mutateGenes rng pm dc gs (k+1)
        (g :: rest, k')

/-- `PopulationGA.sortByFitness()`: stable sort, descending by fitness
(comparator `c2.getFitness() - c1.getFitness()`). -/
def sortByFitness (l : List Chrom) : List Chrom :=
  sortOrd (fun x c => decide (c.fitness ≤ x.fitness)) l

/-- The offspring-filling loop of `runGA`: select two parents, crossover,
mutate both offspring, push the first and — only when a slot remains —
the second, until `need` slots are filled. -/
def genOffspring (rng : ℕ → ℚ) (dc : ℤ) (pc pm : ℚ) (pop : List Chrom) :
    ℕ → ℕ → List Chrom × ℕ
  | 0, k => ([], k)
  | need + 1, k =>
      let par1 := tournamentPick rng k pop
      let par2 := tournamentPick rng (k+3) pop
      let (o1, o2, k1) := crossover rng (k+6) pc par1 par2
      let (g1, k2) := mutateGenes rng pm dc o1.genes k1
      let (g2, k3) := mutateGenes rng pm dc o2.genes k2
      let off1 : Chrom := { o1 with genes := g1 }
      let off2 : Chrom := { o2 with genes := g2 }
      match need with
      | 0 => ([off1], k3)
      | need' + 1 =>
          let (rest, k4) := genOffspring rng dc pc pm pop need' k3
          (off1 :: off2 :: rest, k4)

/-- One generation of `runGA`: sort the population, clone the best as elite,
fill the remaining `populationSize - 1` slots with offspring, recompute all
fitness values, and sort the new population. -/
def nextGeneration (rng : ℕ → ℚ) (dc : ℤ) (pc pm : ℚ) (populationSize : ℕ)
    (pop : List Chrom) (k : ℕ) : List Chrom × ℕ :=
  let sorted := sortByFitness pop
  let elite := sorted.headD default
  let (offspring, k') := genOffspring rng dc pc pm sorted (populationSize - 1) k
  let newPop := elite :: offspring
  let evaluated := newPop.map (fun c => { c with fitness := calcFitness c.genes })
  (sortByFitness evaluated, k')

/-- The mutable state of a `runGA` run: the population, the tracked global
best fitness (`-Infinity`-initialized) and position, and the draw index. -/
structure GAState where
  pop : List Chrom
  gbF : Fitness
  gbP : List ℤ
  k : ℕ
deriving Repr

/-- One `while` iteration of `runGA`: run a generation and update the global
best exactly when the generation's sorted best strictly exceeds it
(`population.getChromosome(0).getFitness() > this.globalBestFitnesses[dcIndex]`). -/
def runGAStep (rng : ℕ → ℚ) (dc : ℤ) (pc pm : ℚ) (populationSize : ℕ)
    (st : GAState) : GAState :=
  let (pop2, k') := nextGeneration rng dc pc pm populationSize st.pop st.k
  let best := pop2.headD default
  if Fitness.blt st.gbF (.fin best.fitness) then
    ⟨pop2, .fin best.fitness, best.genes, k'⟩
  else
    ⟨pop2, st.gbF, st.gbP, k'⟩

/-- The fitness value the global-best update of a step compares against:
the head fitness of the freshly generated, sorted population. -/
def bestObserved (rng : ℕ → ℚ) (dc : ℤ) (pc pm : ℚ) (populationSize : ℕ)
    (st : GAState) : ℚ :=
  ((nextGeneration rng dc pc pm populationSize st.pop st.k).1.headD default).fitness

/-- `n` applications of `runGAStep` (the `while (iteration < maxIterations)`
loop). -/
def runGAIter (rng : ℕ → ℚ) (dc : ℤ) (pc pm : ℚ) (populationSize : ℕ) :
    ℕ → GAState → GAState
  | 0, st => st
  | n + 1, st => runGAIter rng dc pc pm populationSize n
      (runGAStep rng dc pc pm populationSize st)

/-- `GeneticAlgorithm.runGA(population, dc)` preceded by the constructor's
global-best initialization (fitness `-Infinity`, position all zeros) and the
initial `computeFitness`. -/
def runGA (rng : ℕ → ℚ) (dc : ℤ) (pc pm : ℚ)
    (maxIterations populationSize chromosomeLength : ℕ)
    (pop : List Chrom) (k : ℕ) : GAState :=
  let evaluated := pop.map (fun c => { c with fitness := calcFitness c.genes })
  runGAIter rng dc pc pm populationSize maxIterations
    ⟨evaluated, .negInf, List.replicate chromosomeLength 0, k⟩

/-- A BAT-style individual as passed to the legacy `geneticAlgorithm`
wrapper; only `position` is read. -/
structure BatInd where
  position : List ℤ
deriving DecidableEq, Repr

instance : Inhabited BatInd := ⟨⟨[]⟩⟩

/-- `geneticAlgorithm(population, iterations)`: convert the BAT population to
chromosomes (the discarded `new PopulationGA(...)` construction first
consumes `populationSize * taskCount` draws), run the GA with `pc = 0.8`,
`pm = 0.1`, `dc = 1`, and return the tracked global-best position. -/
def geneticAlgorithm (rng : ℕ → ℚ) (population : List BatInd)
    (iterations : ℕ) : List ℤ :=
  let populationSize := population.length
  let taskCount := (population.headD default).position.length
  let chromosomes : List Chrom := (List.range populationSize).map (fun (i : ℕ) =>
    { id := (i : ℤ), genes := (population.getD i default).position,
      fitness := 0, velocity := List.replicate taskCount 0 })
  let st := runGA rng 1 (4/5) (1/10) iterations populationSize taskCount
    chromosomes (populationSize * taskCount)
  st.gbP

/-- `PopulationGA.generateRandomChromosome()`: `chromosomeLength` draws from
the datacenter window `[(dc-1)*9, dc*9 - 1]`. -/
def generateRandomChromosome (rng : ℕ → ℚ) (k : ℕ) (chromosomeLength : ℕ)
    (dc : ℤ) : List ℤ :=
  (List.range chromosomeLength).map (fun j =>
    (dc - 1) * 9 +
      ⌊rng (k + j) * (((dc * 9 - 1 : ℤ) : ℚ) - (((dc - 1) * 9 : ℤ) : ℚ) + 1)⌋)

/-- `PopulationGA.generateOppositeChromosome(genes)`:
gene ↦ `maxPosition + minPosition - gene`, the reflection across the
datacenter window — no `workerCount` is involved. -/
def generateOppositeChromosome (dc : ℤ) (genes : List ℤ) : List ℤ :=
  genes.map (fun g => (dc * 9 - 1) + (dc - 1) * 9 - g)

/-- `PopulationGA.initializePopulation()`: for each `i < populationSize`,
push a random chromosome with id `i` and then its opposite with id
`i + populationSize` — `2 * populationSize` members in total, with no
truncation. -/
def initializePopulation (rng : ℕ → ℚ) (k : ℕ)
    (populationSize chromosomeLength : ℕ) (dc : ℤ) : List Chrom :=
  (List.range populationSize).bind (fun i =>
    let genes := generateRandomChromosome rng (k + i * chromosomeLength)
      chromosomeLength dc
    let oppositeGenes := generateOppositeChromosome dc genes
    [withIdAndGenes (i : ℤ) genes,
     withIdAndGenes ((i : ℤ) + (populationSize : ℤ)) oppositeGenes])

end GA

/-! ## Closed-form restatement of the swarm fitness, validity predicates,
and concrete instantiation data -/

namespace Choa

/-- The dictionary key that task index `i` lands in:
`individual.chromosome[i]`, with out-of-range and `NaN` collapsed to `none`. -/
def keyAt (chrom : List Gene) (i : ℕ) : Gene := (chrom.get? i).join

/-- The workers (dictionary keys) that received at least one task. -/
def assignedWorkers (chrom : List Gene) (n : ℕ) : Finset Gene :=
  (Finset.range n).image (keyAt chrom)

/-- Closed form of the accumulated `workerLoad[w]`: the total execution time
of the tasks assigned to `w`. -/
def workerLoadSum (chrom : List Gene) (tasks : List Task) (w : Gene) : ℚ :=
  ∑ i ∈ (Finset.range tasks.length).filter (fun i => keyAt chrom i = w),
    execTimeOf (tasks.getD i default)

/-- Closed form of the accumulated `workerCost[w]`. -/
def workerCostSum (chrom : List Gene) (tasks : List Task) (w : Gene) : ℚ :=
  ∑ i ∈ (Finset.range tasks.length).filter (fun i => keyAt chrom i = w),
    costOf (tasks.getD i default)

/-- Closed-form counterpart of `calculateFitness`: the maximum loaded-worker
time over the workers that received at least one task, plus the summed
per-worker costs; `-Infinity` when no worker received a task. -/
def fitnessClosedForm (chrom : List Gene) (tasks : List Task) : Fitness :=
  if h : (assignedWorkers chrom tasks.length).Nonempty then
    .fin ((assignedWorkers chrom tasks.length).sup' h (workerLoadSum chrom tasks) +
      ∑ w ∈ assignedWorkers chrom tasks.length, workerCostSum chrom tasks w)
  else .negInf

/-- A well-formed chromosome for `taskCount` tasks and `workerCount` workers:
correct length, every gene an integer in `[0, workerCount)`. -/
def ChromValid (wc : ℤ) (tc : ℕ) (c : List Gene) : Prop :=
  c.length = tc ∧ ∀ g ∈ c, ∃ z : ℤ, g = some z ∧ 0 ≤ z ∧ z < wc

/-- A population member in a consistent state: valid chromosome, stored
fitness equal to its evaluation. -/
def ChimpOk (wc : ℤ) (tc : ℕ) (tasks : List Task) (ch : Chimp) : Prop :=
  ChromValid wc tc ch.chromosome ∧
  ch.fitness = calculateFitness ch.chromosome tasks

/-- A leader slot: either still the empty-chromosome sentinel, or holding a
valid chromosome. -/
def LeaderOk (wc : ℤ) (tc : ℕ) (ch : Chimp) : Prop :=
  ch.chromosome = [] ∨ ChromValid wc tc ch.chromosome

/-- The re-evaluated copy of an individual as `evaluateFitness` stores it. -/
def evalInd (tasks : List Task) (c : Chimp) : Chimp :=
  { chromosome := c.chromosome, fitness := calculateFitness c.chromosome tasks }

/-- Modelled from the spec's wording of the fitness formula (the claim under
test), with `execTime = fixedCloudletLength / workerProcessingRate[gene_i]`
for an ambient per-worker rate function `rate`.  The repository's
`calculateFitness` receives no worker-rate data at all; this definition
exists only to compare the claim's formula with the code's behaviour. -/
def specWorkerRateFitness (rate : ℤ → ℚ) (chrom : List ℤ) (tasks : List Task) : ℚ :=
  let n := tasks.length
  let key : ℕ → ℤ := fun i => chrom.getD i 0
  let exec : ℕ → ℚ := fun i => 10000 / rate (key i)
  let buckets := (Finset.range n).image key
  let load : ℤ → ℚ := fun w =>
    ∑ i ∈ (Finset.range n).filter (fun i => key i = w), exec i
  let cost : ℤ → ℚ := fun w =>
    ∑ i ∈ (Finset.range n).filter (fun i => key i = w),
      (exec i * (1/2) + 512 * (1/20) + 1000 * (1/10))
  if h : buckets.Nonempty then buckets.sup' h load + ∑ w ∈ buckets, cost w
  else 0

end Choa

/-- The all-zero draw stream, used to instantiate random-stream hypotheses
concretely. -/
def czero : ℕ → ℚ := fun _ => 0

/-- A constant stand-in for the `Math.pow(·, 1/3)` table in concrete
instantiations (the theorems hold for every such table). -/
def cpow : ℕ → ℚ := fun _ => 1

/-- The draw stream of the concrete `geneticAlgorithm` run used to refute the
output-range claim: 6 draws are consumed by the discarded `PopulationGA`
construction, 6 by tournament selection, one (`9/10 ≥ 0.8`) skips crossover,
then `1/20 < 0.1` mutates each of the three genes to
`Math.floor(0.95 * 9) = 8`, and the second offspring is left unmutated. -/
def crng : ℕ → ℚ := fun n =>
  ([0, 0, 0, 0, 0, 0, 0, 0, 0, 0, 0, 0,
    9/10, 1/20, 19/20, 1/20, 19/20, 1/20, 19/20, 1/2, 1/2, 1/2] : List ℚ).getD n 0

namespace GA

/-- A well-formed GA chromosome: `tc` genes, each in `[0, M)` (for the
driver, `M = max workerCount 9`: initial genes come from `[0, workerCount)`
and mutated genes from the fixed `[0, 9)` datacenter window). -/
def GenesOk (M : ℤ) (tc : ℕ) (c : Chrom) : Prop :=
  c.genes.length = tc ∧ ∀ g ∈ c.genes, 0 ≤ g ∧ g < M

end GA

/-! # Supporting lemmas -/

theorem headD_mem {α : Type} {l : List α} (d : α) (h : l ≠ []) :
    l.headD d ∈ l := by
  cases l with
  | nil => exact absurd rfl h
  | cons a as => simp

theorem getD_mem {α : Type} {l : List α} {i : ℕ} (d : α) (h : i < l.length) :
    l.getD i d ∈ l := by
  rw [List.getD_eq_getElem l d h]
  exact List.getElem_mem h

theorem getD_range_map {α : Type} (f : ℕ → α) {n i : ℕ} (d : α) (h : i < n) :
    ((List.range n).map f).getD i d = f i := by
  rw [List.getD_eq_getD_get?, List.get?_map, List.get?_range h]
  rfl

theorem enumFrom_append_singleton {α : Type} (t : α) :
    ∀ (l : List α) (n : ℕ),
      (l ++ [t]).enumFrom n = l.enumFrom n ++ [(n + l.length, t)] := by
  intro l
  induction l with
  | nil => intro n; simp
  | cons a as ih =>
      intro n
      have harith : n + 1 + as.length = n + (as.length + 1) := by omega
      simp only [List.cons_append, List.enumFrom_cons, ih (n+1), harith,
        List.length_cons]

theorem enum_append_singleton {α : Type} (l : List α) (t : α) :
    (l ++ [t]).enum = l.enum ++ [(l.length, t)] := by
  have := enumFrom_append_singleton t l 0
  simpa [List.enum] using this

theorem maxOf_map_eq_sup' {α : Type} [DecidableEq α] {l : List α} (h : l ≠ [])
    (f : α → ℚ) (hne : l.toFinset.Nonempty) :
    maxOf (l.map f) = l.toFinset.sup' hne f := by
  apply le_antisymm
  · apply maxOf_le (by simpa using h)
    intro y hy
    obtain ⟨x, hx, rfl⟩ := List.mem_map.mp hy
    exact Finset.le_sup' f (List.mem_toFinset.mpr hx)
  · apply Finset.sup'_le
    intro x hx
    exact le_maxOf_of_mem (List.mem_map_of_mem f (List.mem_toFinset.mp hx))

namespace Choa

theorem foldAcc_nil (chrom : List Gene) :
    foldAcc chrom [] = ⟨[], fun _ => 0, fun _ => 0⟩ := rfl

theorem foldAcc_append_singleton (chrom : List Gene) (ts : List Task) (t : Task) :
    foldAcc chrom (ts ++ [t]) = calcStep chrom (foldAcc chrom ts) (ts.length, t) := by
  unfold foldAcc
  rw [enum_append_singleton, List.foldl_append]
  rfl

theorem calcStep_assigned (chrom : List Gene) (acc : LoadAcc) (it : ℕ × Task) :
    (calcStep chrom acc it).assigned =
      if keyAt chrom it.1 ∈ acc.assigned then acc.assigned
      else acc.assigned ++ [keyAt chrom it.1] := rfl

theorem calcStep_load (chrom : List Gene) (acc : LoadAcc) (it : ℕ × Task)
    (w : Gene) :
    (calcStep chrom acc it).load w =
      if w = keyAt chrom it.1 then acc.load w + execTimeOf it.2
      else acc.load w := rfl

theorem calcStep_cost (chrom : List Gene) (acc : LoadAcc) (it : ℕ × Task)
    (w : Gene) :
    (calcStep chrom acc it).cost w =
      if w = keyAt chrom it.1 then acc.cost w + costOf it.2
      else acc.cost w := rfl

theorem foldAcc_spec (chrom : List Gene) (tasks : List Task) :
    (foldAcc chrom tasks).assigned.Nodup ∧
    (foldAcc chrom tasks).assigned.toFinset = assignedWorkers chrom tasks.length ∧
    (∀ w, (foldAcc chrom tasks).load w = workerLoadSum chrom tasks w) ∧
    (∀ w, (foldAcc chrom tasks).cost w = workerCostSum chrom tasks w) := by
  induction tasks using List.reverseRecOn with
  | nil =>
      refine ⟨List.nodup_nil, ?_, ?_, ?_⟩
      · simp [foldAcc_nil, assignedWorkers]
      · intro w; simp [foldAcc_nil, workerLoadSum]
      · intro w; simp [foldAcc_nil, workerCostSum]
  | append_singleton ts t ih =>
      obtain ⟨hnd, hfin, hload, hcost⟩ := ih
      have hkey : ∀ it : ℕ × Task, (chrom.get? it.1).join = keyAt chrom it.1 :=
        fun _ => rfl
      have hn : (ts ++ [t]).length = ts.length + 1 := by simp
      have hAW : assignedWorkers chrom (ts.length + 1) =
          insert (keyAt chrom ts.length) (assignedWorkers chrom ts.length) := by
        unfold assignedWorkers
        rw [Finset.range_succ, Finset.image_insert]
      have hsnoc : ∀ w : Gene,
          (Finset.range (ts.length + 1)).filter (fun i => keyAt chrom i = w) =
          if keyAt chrom ts.length = w then
            insert ts.length ((Finset.range ts.length).filter (fun i => keyAt chrom i = w))
          else (Finset.range ts.length).filter (fun i => keyAt chrom i = w) := by
        intro w
        rw [Finset.range_succ, Finset.filter_insert]
      have hprefix : ∀ (g : Task → ℚ) (w : Gene),
          (∑ i ∈ (Finset.range ts.length).filter (fun i => keyAt chrom i = w),
            g ((ts ++ [t]).getD i default)) =
          ∑ i ∈ (Finset.range ts.length).filter (fun i => keyAt chrom i = w),
            g (ts.getD i default) := by
        intro g w
        refine Finset.sum_congr rfl fun i hi => ?_
        have hi' : i < ts.length := Finset.mem_range.mp (Finset.mem_filter.mp hi).1
        rw [List.getD_append _ _ _ _ hi']
      have hlast : (ts ++ [t]).getD ts.length default = t := by
        rw [List.getD_append_right _ _ _ _ (le_refl _)]
        simp
      have hlenmem : ∀ w : Gene, ts.length ∉
          (Finset.range ts.length).filter (fun i => keyAt chrom i = w) := by
        intro w hmem
        exact Finset.not_mem_range_self (Finset.mem_filter.mp hmem).1
      rw [foldAcc_append_singleton]
      refine ⟨?_, ?_, ?_, ?_⟩
      · -- Nodup
        rw [calcStep_assigned]
        by_cases hmem : keyAt chrom ts.length ∈ (foldAcc chrom ts).assigned
        · rw [if_pos hmem]; exact hnd
        · rw [if_neg hmem]
          simp [List.nodup_append, hnd, hmem]
      · -- toFinset
        rw [hn, hAW, calcStep_assigned]
        by_cases hmem : keyAt chrom ts.length ∈ (foldAcc chrom ts).assigned
        · rw [if_pos hmem, hfin]
          exact (Finset.insert_eq_self.mpr (hfin ▸ List.mem_toFinset.mpr hmem)).symm
        · rw [if_neg hmem, List.toFinset_append, hfin]
          ext x
          simp [Or.comm]
      · -- load
        intro w
        rw [calcStep_load]
        unfold workerLoadSum
        rw [hn, hsnoc w]
        by_cases hw : keyAt chrom ts.length = w
        · rw [if_pos hw.symm, if_pos hw, Finset.sum_insert (hlenmem w), hlast,
            hprefix execTimeOf w]
          rw [hload w]
          unfold workerLoadSum
          ring
        · rw [if_neg (fun hc => hw hc.symm), if_neg hw, hprefix execTimeOf w,
            hload w]
          rfl
      · -- cost
        intro w
        rw [calcStep_cost]
        unfold workerCostSum
        rw [hn, hsnoc w]
        by_cases hw : keyAt chrom ts.length = w
        · rw [if_pos hw.symm, if_pos hw, Finset.sum_insert (hlenmem w), hlast,
            hprefix costOf w]
          rw [hcost w]
          unfold workerCostSum
          ring
        · rw [if_neg (fun hc => hw hc.symm), if_neg hw, hprefix costOf w,
            hcost w]
          rfl

end Choa

namespace Choa

theorem aw_nonempty (chrom : List Gene) {tasks : List Task} (h : tasks ≠ []) :
    (assignedWorkers chrom tasks.length).Nonempty := by
  unfold assignedWorkers
  exact Finset.Nonempty.image
    (Finset.nonempty_range_iff.mpr (fun hc => h (List.length_eq_zero.mp hc))) _

theorem calc_eq_closed (chrom : List Gene) (tasks : List Task) :
    calculateFitness chrom tasks = fitnessClosedForm chrom tasks := by
  obtain ⟨hnd, hfin, hload, hcost⟩ := foldAcc_spec chrom tasks
  unfold calculateFitness fitnessClosedForm
  by_cases hemp : (foldAcc chrom tasks).assigned = []
  · have hne : ¬ (assignedWorkers chrom tasks.length).Nonempty := by
      rw [← hfin, hemp]; simp
    rw [dif_neg hne]
    simp [hemp]
  · have htf : (foldAcc chrom tasks).assigned.toFinset.Nonempty :=
      (List.toFinset_nonempty_iff _).mpr hemp
    have hfne : (assignedWorkers chrom tasks.length).Nonempty := hfin ▸ htf
    rw [dif_pos hfne]
    have h1 : (foldAcc chrom tasks).assigned.map (foldAcc chrom tasks).load
        = (foldAcc chrom tasks).assigned.map (workerLoadSum chrom tasks) :=
      List.map_congr_left (fun x _ => hload x)
    have h2 : (foldAcc chrom tasks).assigned.map (foldAcc chrom tasks).cost
        = (foldAcc chrom tasks).assigned.map (workerCostSum chrom tasks) :=
      List.map_congr_left (fun x _ => hcost x)
    have h3 : maxOf ((foldAcc chrom tasks).assigned.map (workerLoadSum chrom tasks))
        = (assignedWorkers chrom tasks.length).sup' hfne (workerLoadSum chrom tasks) := by
      rw [maxOf_map_eq_sup' hemp _ htf]
      exact Finset.sup'_congr htf hfin (fun x _ => rfl)
    have h4 : ((foldAcc chrom tasks).assigned.map (workerCostSum chrom tasks)).sum
        = ∑ w ∈ assignedWorkers chrom tasks.length, workerCostSum chrom tasks w := by
      rw [← List.sum_toFinset _ hnd, hfin]
    simp only [List.isEmpty_iff, hemp, if_false, h1, h2, h3, h4]

theorem calc_ne_inf (chrom : List Gene) (tasks : List Task) :
    calculateFitness chrom tasks ≠ .inf := by
  rw [calc_eq_closed]
  unfold fitnessClosedForm
  split <;> simp

theorem calc_fin (chrom : List Gene) {tasks : List Task} (h : tasks ≠ []) :
    calculateFitness chrom tasks =
      .fin ((assignedWorkers chrom tasks.length).sup'
          (aw_nonempty chrom h) (workerLoadSum chrom tasks) +
        ∑ w ∈ assignedWorkers chrom tasks.length, workerCostSum chrom tasks w) := by
  rw [calc_eq_closed]
  unfold fitnessClosedForm
  rw [dif_pos (aw_nonempty chrom h)]

theorem costSum_partition (chrom : List Gene) (tasks : List Task) :
    ∑ w ∈ assignedWorkers chrom tasks.length, workerCostSum chrom tasks w =
    ∑ i ∈ Finset.range tasks.length, costOf (tasks.getD i default) := by
  unfold workerCostSum assignedWorkers
  exact Finset.sum_fiberwise_of_maps_to (fun i hi => Finset.mem_image_of_mem _ hi) _

theorem execTimeOf_pos (t : Task) : 0 < execTimeOf t := by
  unfold execTimeOf weightMips
  split_ifs <;> norm_num

theorem makespan_le_total (chrom : List Gene) (tasks : List Task)
    (h : (assignedWorkers chrom tasks.length).Nonempty) :
    (assignedWorkers chrom tasks.length).sup' h (workerLoadSum chrom tasks) ≤
    ∑ i ∈ Finset.range tasks.length, execTimeOf (tasks.getD i default) := by
  apply Finset.sup'_le
  intro w _
  unfold workerLoadSum
  refine Finset.sum_le_sum_of_subset_of_nonneg (Finset.filter_subset _ _) ?_
  intro i _ _
  exact (execTimeOf_pos _).le

theorem keyAt_replicate_none (tc i : ℕ) :
    keyAt (List.replicate tc (none : Option ℤ)) i = none := by
  unfold keyAt
  rw [List.get?_eq_getElem?, List.getElem?_replicate]
  split <;> rfl

theorem calc_replicate_none (tc : ℕ) {tasks : List Task} (h : tasks ≠ []) :
    calculateFitness (List.replicate tc none) tasks =
    .fin ((∑ i ∈ Finset.range tasks.length, execTimeOf (tasks.getD i default)) +
          (∑ i ∈ Finset.range tasks.length, costOf (tasks.getD i default))) := by
  rw [calc_fin _ h]
  have hn0 : tasks.length ≠ 0 := fun hc => h (List.length_eq_zero.mp hc)
  have himg : assignedWorkers (List.replicate tc (none : Option ℤ)) tasks.length
      = {(none : Gene)} := by
    unfold assignedWorkers
    ext x
    simp only [Finset.mem_image, Finset.mem_range, keyAt_replicate_none,
      Finset.mem_singleton]
    constructor
    · rintro ⟨i, _, rfl⟩; rfl
    · rintro rfl
      exact ⟨0, Nat.pos_of_ne_zero hn0, rfl⟩
  have hfilter : (Finset.range tasks.length).filter
      (fun i => keyAt (List.replicate tc (none : Option ℤ)) i = (none : Gene))
      = Finset.range tasks.length := by
    apply Finset.filter_true_of_mem
    intro i _
    exact keyAt_replicate_none tc i
  congr 1
  rw [Finset.sup'_congr (aw_nonempty _ h) himg (fun x _ => rfl)]
  rw [Finset.sup'_singleton]
  unfold workerLoadSum
  rw [hfilter]
  congr 1
  rw [Finset.sum_congr himg (fun x _ => rfl)]
  rw [Finset.sum_singleton]
  unfold workerCostSum
  rw [hfilter]

theorem lt_fin_iff {a b : ℚ} : Fitness.lt (.fin a) (.fin b) ↔ a < b := by
  simp [Fitness.lt, Fitness.blt]

/-- Adopting the all-`NaN` proposal can never strictly improve a chimp whose
stored fitness is its own evaluation: the proposal's fitness is the full total
execution time plus the assignment-independent total cost, which dominates
every makespan. -/
theorem not_lt_calc_replicate_none (tc : ℕ) (chrom : List Gene)
    {tasks : List Task} (h : tasks ≠ []) :
    ¬ Fitness.lt (calculateFitness (List.replicate tc none) tasks)
                 (calculateFitness chrom tasks) := by
  rw [calc_replicate_none tc h, calc_fin chrom h, lt_fin_iff]
  rw [costSum_partition]
  have hms := makespan_le_total chrom tasks (aw_nonempty chrom h)
  linarith

end Choa

theorem bind_const_none {α β : Type} (x : Option α) :
    (x.bind fun _ => (none : Option β)) = none := by
  cases x <;> rfl

theorem join_none_eq : (none : Option (Option ℤ)).join = none := rfl

namespace Choa

theorem updatePositions_length (rng : ℕ → ℚ) (k : ℕ) (pop : List Chimp)
    (tc : ℕ) (wc : ℤ) (co : Coefficients) (A B C D : Chimp) (tasks : List Task) :
    (updatePositions rng k pop tc wc co A B C D tasks).1.length = pop.length := by
  unfold updatePositions
  simp

theorem updatePositions_getD (rng : ℕ → ℚ) (k : ℕ) (pop : List Chimp)
    (tc : ℕ) (wc : ℤ) (co : Coefficients) (A B C D : Chimp) (tasks : List Task)
    {i : ℕ} (h : i < pop.length) :
    (updatePositions rng k pop tc wc co A B C D tasks).1.getD i default =
      updateChimp rng (k + i * (8 * tc)) co tc wc A.chromosome B.chromosome
        C.chromosome D.chromosome tasks (pop.getD i default) := by
  unfold updatePositions
  exact getD_range_map _ default h

theorem updateChimp_greedy (rng : ℕ → ℚ) (k : ℕ) (co : Coefficients)
    (tc : ℕ) (wc : ℤ) (A B C D : List Gene) (tasks : List Task) (chimp : Chimp) :
    Fitness.le (updateChimp rng k co tc wc A B C D tasks chimp).fitness
      chimp.fitness ∧
    (updateChimp rng k co tc wc A B C D tasks chimp ≠ chimp →
      Fitness.lt (updateChimp rng k co tc wc A B C D tasks chimp).fitness
        chimp.fitness) := by
  unfold updateChimp
  dsimp only
  split
  next hlt => exact ⟨Fitness.le_of_lt hlt, fun _ => hlt⟩
  next hlt => exact ⟨Fitness.le_refl _, fun hne => absurd rfl hne⟩

theorem join_get?_of_valid {wc : ℤ} {tc : ℕ} {c : List Gene}
    (h : ChromValid wc tc c) {j : ℕ} (hj : j < tc) :
    ∃ z : ℤ, (c.get? j).join = some z ∧ 0 ≤ z ∧ z < wc := by
  have hjl : j < c.length := by rw [h.1]; exact hj
  obtain ⟨g, hg⟩ : ∃ g, c.get? j = some g :=
    ⟨c.get ⟨j, hjl⟩, List.get?_eq_get hjl⟩
  have hmem : g ∈ c := List.get?_mem hg
  obtain ⟨z, hz, hz0, hzw⟩ := h.2 g hmem
  refine ⟨z, ?_, hz0, hzw⟩
  rw [hg, hz]
  rfl

theorem clamp_bounds (wc r : ℤ) (hwc : 1 ≤ wc) :
    0 ≤ max 0 (min (wc - 1) r) ∧ max 0 (min (wc - 1) r) < wc := by
  constructor
  · exact le_max_left 0 _
  · have h1 : min (wc - 1) r ≤ wc - 1 := min_le_left _ _
    have h2 : max 0 (min (wc - 1) r) ≤ wc - 1 := max_le (by omega) h1
    omega

theorem leaderTerm_some (m A C : ℚ) (l c : ℤ) :
    leaderTerm m A C (some l) (some c) =
      some ((l : ℚ) - A * |C * (l : ℚ) - m * (c : ℚ)|) := rfl

theorem leaderTerm_none_left (m A C : ℚ) (g : Gene) :
    leaderTerm m A C none g = none := by
  cases g <;> rfl

theorem newPosAt_valid (rng : ℕ → ℚ) (k : ℕ) (co : Coefficients)
    {wc : ℤ} {tc : ℕ} {A B C D cur : List Gene}
    (hA : ChromValid wc tc A) (hB : ChromValid wc tc B)
    (hC : ChromValid wc tc C) (hD : ChromValid wc tc D)
    (hcur : ChromValid wc tc cur) {j : ℕ} (hj : j < tc) (hwc : 1 ≤ wc) :
    ∃ z : ℤ, newPosAt rng k co wc A B C D cur j = some z ∧ 0 ≤ z ∧ z < wc := by
  obtain ⟨za, hza, _, _⟩ := join_get?_of_valid hA hj
  obtain ⟨zb, hzb, _, _⟩ := join_get?_of_valid hB hj
  obtain ⟨zc, hzc, _, _⟩ := join_get?_of_valid hC hj
  obtain ⟨zd, hzd, _, _⟩ := join_get?_of_valid hD hj
  obtain ⟨zu, hzu, _, _⟩ := join_get?_of_valid hcur hj
  unfold newPosAt
  rw [hza, hzb, hzc, hzd, hzu]
  simp only [leaderTerm_some, Option.some_bind, Option.map_some']
  exact ⟨_, rfl, (clamp_bounds wc _ hwc).1, (clamp_bounds wc _ hwc).2⟩

theorem newPosAt_none (rng : ℕ → ℚ) (k : ℕ) (co : Coefficients)
    (wc : ℤ) (A B C D cur : List Gene) (j : ℕ)
    (h : A = [] ∨ B = [] ∨ C = [] ∨ D = []) :
    newPosAt rng k co wc A B C D cur j = none := by
  unfold newPosAt
  rcases h with h | h | h | h <;> subst h <;>
    simp [List.get?_nil, join_none_eq, leaderTerm_none_left, Option.none_bind,
      bind_const_none]

end Choa

namespace Choa

theorem proposal_valid (rng : ℕ → ℚ) (k : ℕ) (co : Coefficients)
    {wc : ℤ} {tc : ℕ} {A B C D cur : List Gene}
    (hA : ChromValid wc tc A) (hB : ChromValid wc tc B)
    (hC : ChromValid wc tc C) (hD : ChromValid wc tc D)
    (hcur : ChromValid wc tc cur) (hwc : 1 ≤ wc) :
    ChromValid wc tc
      ((List.range tc).map fun j => newPosAt rng (k + 8*j) co wc A B C D cur j) := by
  constructor
  · simp
  · intro g hg
    obtain ⟨j, hj, rfl⟩ := List.mem_map.mp hg
    exact newPosAt_valid rng (k + 8*j) co hA hB hC hD hcur (List.mem_range.mp hj) hwc

theorem proposal_none (rng : ℕ → ℚ) (k : ℕ) (co : Coefficients)
    (wc : ℤ) (tc : ℕ) (A B C D cur : List Gene)
    (h : A = [] ∨ B = [] ∨ C = [] ∨ D = []) :
    ((List.range tc).map fun j => newPosAt rng (k + 8*j) co wc A B C D cur j) =
      List.replicate tc none := by
  refine List.eq_replicate.mpr ⟨by simp, ?_⟩
  intro b hb
  obtain ⟨j, _, rfl⟩ := List.mem_map.mp hb
  exact newPosAt_none _ _ _ _ _ _ _ _ _ _ h

theorem updateChimp_ok (rng : ℕ → ℚ) (k : ℕ) (co : Coefficients)
    {wc : ℤ} {tc : ℕ} {tasks : List Task} {A B C D : Chimp} {chimp : Chimp}
    (hA : LeaderOk wc tc A) (hB : LeaderOk wc tc B) (hC : LeaderOk wc tc C)
    (hD : LeaderOk wc tc D) (hch : ChimpOk wc tc tasks chimp)
    (hwc : 1 ≤ wc) (ht : tasks ≠ []) :
    ChimpOk wc tc tasks (updateChimp rng k co tc wc A.chromosome B.chromosome
      C.chromosome D.chromosome tasks chimp) := by
  by_cases hall : A.chromosome = [] ∨ B.chromosome = [] ∨ C.chromosome = [] ∨
      D.chromosome = []
  · -- some leader is still the empty sentinel: the proposal is all-NaN and
    -- its fitness is never a strict improvement, so the chimp is unchanged
    have hrep := proposal_none rng k co wc tc A.chromosome B.chromosome
      C.chromosome D.chromosome chimp.chromosome hall
    unfold updateChimp
    dsimp only
    rw [hrep]
    have hcon : ¬ (Fitness.blt (calculateFitness (List.replicate tc none) tasks)
        chimp.fitness = true) := by
      rw [hch.2]
      exact not_lt_calc_replicate_none tc chimp.chromosome ht
    rw [if_neg hcon]
    exact hch
  · push_neg at hall
    have hAv : ChromValid wc tc A.chromosome := hA.resolve_left hall.1
    have hBv : ChromValid wc tc B.chromosome := hB.resolve_left hall.2.1
    have hCv : ChromValid wc tc C.chromosome := hC.resolve_left hall.2.2.1
    have hDv : ChromValid wc tc D.chromosome := hD.resolve_left hall.2.2.2
    have hprop := proposal_valid rng k co hAv hBv hCv hDv hch.1 hwc
    unfold updateChimp
    dsimp only
    split
    · exact ⟨hprop, rfl⟩
    · exact hch

theorem updatePositions_ok (rng : ℕ → ℚ) (k : ℕ) {pop : List Chimp}
    {tc : ℕ} {wc : ℤ} {co : Coefficients} {tasks : List Task} {A B C D : Chimp}
    (hpop : ∀ c ∈ pop, ChimpOk wc tc tasks c)
    (hA : LeaderOk wc tc A) (hB : LeaderOk wc tc B) (hC : LeaderOk wc tc C)
    (hD : LeaderOk wc tc D) (hwc : 1 ≤ wc) (ht : tasks ≠ []) :
    ∀ c ∈ (updatePositions rng k pop tc wc co A B C D tasks).1,
      ChimpOk wc tc tasks c := by
  intro c hc
  unfold updatePositions at hc
  obtain ⟨i, hi, rfl⟩ := List.mem_map.mp hc
  have hi' : i < pop.length := List.mem_range.mp hi
  exact updateChimp_ok _ _ _ hA hB hC hD (hpop _ (getD_mem default hi')) hwc ht

theorem evalOne_fst (tasks : List Task) (b : Bests) (ind : Chimp) :
    (evalOne tasks b ind).1 = evalInd tasks ind := rfl

theorem evalOne_snd_cases (tasks : List Task) (b : Bests) (ind : Chimp) :
    ((evalOne tasks b ind).2.attacker = b.attacker ∨
      (evalOne tasks b ind).2.attacker = evalInd tasks ind) ∧
    ((evalOne tasks b ind).2.barrier = b.barrier ∨
      (evalOne tasks b ind).2.barrier = evalInd tasks ind) ∧
    ((evalOne tasks b ind).2.chaser = b.chaser ∨
      (evalOne tasks b ind).2.chaser = evalInd tasks ind) ∧
    ((evalOne tasks b ind).2.driver = b.driver ∨
      (evalOne tasks b ind).2.driver = evalInd tasks ind) := by
  unfold evalOne
  dsimp only
  split_ifs <;> simp [evalInd]

theorem evalOne_attacker_of_inf (tasks : List Task) (b : Bests) (ind : Chimp)
    (h : b.attacker.fitness = .inf) :
    (evalOne tasks b ind).2.attacker = evalInd tasks ind := by
  unfold evalOne
  dsimp only
  have hblt : Fitness.blt (calculateFitness ind.chromosome tasks)
      b.attacker.fitness = true := by
    rw [h]
    exact Fitness.lt_inf_of_ne_inf (calc_ne_inf _ _)
  rw [if_pos hblt]
  rfl

theorem evaluateFitness_cons (tasks : List Task) (ind : Chimp)
    (rest : List Chimp) (b : Bests) :
    evaluateFitness tasks (ind :: rest) b =
      ((evalOne tasks b ind).1 ::
        (evaluateFitness tasks rest (evalOne tasks b ind).2).1,
       (evaluateFitness tasks rest (evalOne tasks b ind).2).2) := rfl

theorem evaluateFitness_fst (tasks : List Task) :
    ∀ (pop : List Chimp) (b : Bests),
      (evaluateFitness tasks pop b).1 = pop.map (evalInd tasks) := by
  intro pop
  induction pop with
  | nil => intro b; rfl
  | cons ind rest ih =>
      intro b
      rw [evaluateFitness_cons, List.map_cons]
      simp [evalOne_fst, ih]

theorem evaluateFitness_slots (tasks : List Task) :
    ∀ (pop : List Chimp) (b : Bests),
      ((evaluateFitness tasks pop b).2.attacker = b.attacker ∨
        ∃ c ∈ pop, (evaluateFitness tasks pop b).2.attacker = evalInd tasks c) ∧
      ((evaluateFitness tasks pop b).2.barrier = b.barrier ∨
        ∃ c ∈ pop, (evaluateFitness tasks pop b).2.barrier = evalInd tasks c) ∧
      ((evaluateFitness tasks pop b).2.chaser = b.chaser ∨
        ∃ c ∈ pop, (evaluateFitness tasks pop b).2.chaser = evalInd tasks c) ∧
      ((evaluateFitness tasks pop b).2.driver = b.driver ∨
        ∃ c ∈ pop, (evaluateFitness tasks pop b).2.driver = evalInd tasks c) := by
  intro pop
  induction pop with
  | nil =>
      intro b
      exact ⟨Or.inl rfl, Or.inl rfl, Or.inl rfl, Or.inl rfl⟩
  | cons ind rest ih =>
      intro b
      rw [evaluateFitness_cons]
      obtain ⟨h1, h2, h3, h4⟩ := ih (evalOne tasks b ind).2
      obtain ⟨g1, g2, g3, g4⟩ := evalOne_snd_cases tasks b ind
      refine ⟨?_, ?_, ?_, ?_⟩
      · rcases h1 with h | ⟨c, hc, h⟩
        · rcases g1 with g | g
          · exact Or.inl (by rw [h, g])
          · exact Or.inr ⟨ind, by simp, by rw [h, g]⟩
        · exact Or.inr ⟨c, by simp [hc], h⟩
      · rcases h2 with h | ⟨c, hc, h⟩
        · rcases g2 with g | g
          · exact Or.inl (by rw [h, g])
          · exact Or.inr ⟨ind, by simp, by rw [h, g]⟩
        · exact Or.inr ⟨c, by simp [hc], h⟩
      · rcases h3 with h | ⟨c, hc, h⟩
        · rcases g3 with g | g
          · exact Or.inl (by rw [h, g])
          · exact Or.inr ⟨ind, by simp, by rw [h, g]⟩
        · exact Or.inr ⟨c, by simp [hc], h⟩
      · rcases h4 with h | ⟨c, hc, h⟩
        · rcases g4 with g | g
          · exact Or.inl (by rw [h, g])
          · exact Or.inr ⟨ind, by simp, by rw [h, g]⟩
        · exact Or.inr ⟨c, by simp [hc], h⟩

theorem evaluateFitness_attacker_inf (tasks : List Task) (pop : List Chimp)
    (b : Bests) (hne : pop ≠ []) (hinf : b.attacker.fitness = .inf) :
    ∃ c ∈ pop, (evaluateFitness tasks pop b).2.attacker = evalInd tasks c := by
  cases pop with
  | nil => exact absurd rfl hne
  | cons ind rest =>
      rw [evaluateFitness_cons]
      have hb' := evalOne_attacker_of_inf tasks b ind hinf
      rcases (evaluateFitness_slots tasks rest (evalOne tasks b ind).2).1 with
        h | ⟨c, hc, h⟩
      · exact ⟨ind, by simp, by rw [h, hb']⟩
      · exact ⟨c, by simp [hc], h⟩

theorem applyOBL_ok {wc : ℤ} {tc : ℕ} {tasks : List Task} {pop : List Chimp}
    (hpop : ∀ c ∈ pop, ChimpOk wc tc tasks c) (hwc : 1 ≤ wc) :
    ∀ c ∈ applyOBL pop wc tasks, ChimpOk wc tc tasks c := by
  intro c hc
  unfold applyOBL at hc
  have hc2 := List.mem_of_mem_take hc
  have hc3 := mem_sortOrd hc2
  rcases List.mem_append.mp hc3 with h | h
  · exact hpop c h
  · obtain ⟨ind, hind, rfl⟩ := List.mem_map.mp h
    obtain ⟨⟨hlen, hgen⟩, _⟩ := hpop ind hind
    refine ⟨⟨?_, ?_⟩, rfl⟩
    · unfold oppositeChromosome
      rw [List.length_map]
      exact hlen
    · intro g hg
      unfold oppositeChromosome at hg
      obtain ⟨g0, hg0, rfl⟩ := List.mem_map.mp hg
      obtain ⟨z, hz, hz0, hzw⟩ := hgen g0 hg0
      refine ⟨wc - 1 - z, by rw [hz]; rfl, by omega, by omega⟩

end Choa

namespace Choa

theorem evalInd_ok {wc : ℤ} {tc : ℕ} {tasks : List Task} {c : Chimp}
    (h : ChromValid wc tc c.chromosome) : ChimpOk wc tc tasks (evalInd tasks c) :=
  ⟨h, rfl⟩

theorem getRandomInt_bounds (rng : ℕ → ℚ) (k : ℕ) {wc : ℤ}
    (hr : 0 ≤ rng k ∧ rng k < 1) (hwc : 1 ≤ wc) :
    0 ≤ getRandomInt rng k 0 (wc - 1) ∧ getRandomInt rng k 0 (wc - 1) < wc := by
  unfold getRandomInt
  have hcast : ((wc - 1 : ℤ) : ℚ) - ((0 : ℤ) : ℚ) + 1 = (wc : ℚ) := by
    push_cast
    ring
  rw [hcast]
  have hwq : (0 : ℚ) < (wc : ℚ) := by exact_mod_cast (by omega : (0:ℤ) < wc)
  constructor
  · have h1 : (0:ℚ) ≤ rng k * (wc : ℚ) := mul_nonneg hr.1 hwq.le
    have h2 := Int.floor_nonneg.mpr h1
    omega
  · have hlt : rng k * (wc : ℚ) < ((wc : ℤ) : ℚ) := by
      have := mul_lt_mul_of_pos_right hr.2 hwq
      rw [one_mul] at this
      exact_mod_cast this
    have h3 : ⌊rng k * (wc : ℚ)⌋ < wc := Int.floor_lt.mpr hlt
    omega

theorem createInitialPopulation_length (rng : ℕ → ℚ) (k : ℕ)
    (psize tc : ℕ) (wc : ℤ) :
    (createInitialPopulation rng k psize tc wc).length = psize := by
  unfold createInitialPopulation
  simp

theorem createInitialPopulation_valid (rng : ℕ → ℚ) (k : ℕ)
    {psize tc : ℕ} {wc : ℤ} (hr : ∀ n, 0 ≤ rng n ∧ rng n < 1) (hwc : 1 ≤ wc) :
    ∀ c ∈ createInitialPopulation rng k psize tc wc,
      ChromValid wc tc c.chromosome := by
  intro c hc
  unfold createInitialPopulation at hc
  obtain ⟨i, _, rfl⟩ := List.mem_map.mp hc
  unfold createIndividual
  constructor
  · simp
  · intro g hg
    obtain ⟨j, _, rfl⟩ := (List.mem_map).mp hg
    obtain ⟨h0, h1⟩ := getRandomInt_bounds rng (k + i * tc + j) (hr _) hwc
    exact ⟨_, rfl, h0, h1⟩

theorem applyOBL_length (pop : List Chimp) (wc : ℤ) (tasks : List Task) :
    (applyOBL pop wc tasks).length = pop.length := by
  unfold applyOBL sortAscByFitness
  rw [List.length_take, sortOrd_length]
  simp

theorem choaStep_ok {rng pow13 : ℕ → ℚ} {tc : ℕ} {wc : ℤ} {tasks : List Task}
    {iterations iter : ℕ} {st : List Chimp × Bests × ℕ}
    (hpop : ∀ c ∈ st.1, ChimpOk wc tc tasks c)
    (hatt : ChromValid wc tc st.2.1.attacker.chromosome)
    (hbar : LeaderOk wc tc st.2.1.barrier)
    (hcha : LeaderOk wc tc st.2.1.chaser)
    (hdri : LeaderOk wc tc st.2.1.driver)
    (hwc : 1 ≤ wc) (ht : tasks ≠ []) :
    (∀ c ∈ (choaStep rng pow13 tc wc tasks iterations iter st).1,
      ChimpOk wc tc tasks c) ∧
    ChromValid wc tc
      (choaStep rng pow13 tc wc tasks iterations iter st).2.1.attacker.chromosome ∧
    LeaderOk wc tc (choaStep rng pow13 tc wc tasks iterations iter st).2.1.barrier ∧
    LeaderOk wc tc (choaStep rng pow13 tc wc tasks iterations iter st).2.1.chaser ∧
    LeaderOk wc tc (choaStep rng pow13 tc wc tasks iterations iter st).2.1.driver := by
  unfold choaStep
  dsimp only
  set co := updateFandCoefficients pow13 iter iterations with hco
  set pop' := (updatePositions rng st.2.2 st.1 tc wc co st.2.1.attacker
    st.2.1.barrier st.2.1.chaser st.2.1.driver tasks).1 with hpop'
  have hpopOk' : ∀ c ∈ pop', ChimpOk wc tc tasks c := by
    rw [hpop']
    exact updatePositions_ok _ _ hpop (Or.inr hatt) hbar hcha hdri hwc ht
  obtain ⟨s1, s2, s3, s4⟩ := evaluateFitness_slots tasks pop' st.2.1
  refine ⟨?_, ?_, ?_, ?_, ?_⟩
  · intro c hc
    rw [evaluateFitness_fst] at hc
    obtain ⟨orig, ho, rfl⟩ := List.mem_map.mp hc
    exact evalInd_ok (hpopOk' orig ho).1
  · rcases s1 with h | ⟨c, hc, h⟩
    · rw [h]; exact hatt
    · rw [h]; exact (hpopOk' c hc).1
  · rcases s2 with h | ⟨c, hc, h⟩
    · rw [h]; exact hbar
    · rw [h]; exact Or.inr (hpopOk' c hc).1
  · rcases s3 with h | ⟨c, hc, h⟩
    · rw [h]; exact hcha
    · rw [h]; exact Or.inr (hpopOk' c hc).1
  · rcases s4 with h | ⟨c, hc, h⟩
    · rw [h]; exact hdri
    · rw [h]; exact Or.inr (hpopOk' c hc).1

theorem choaLoop_ok (rng pow13 : ℕ → ℚ) (tc : ℕ) (wc : ℤ) (tasks : List Task)
    (iterations : ℕ) (hwc : 1 ≤ wc) (ht : tasks ≠ []) :
    ∀ (n iter : ℕ) (st : List Chimp × Bests × ℕ),
      (∀ c ∈ st.1, ChimpOk wc tc tasks c) →
      ChromValid wc tc st.2.1.attacker.chromosome →
      LeaderOk wc tc st.2.1.barrier → LeaderOk wc tc st.2.1.chaser →
      LeaderOk wc tc st.2.1.driver →
      ChromValid wc tc
        (choaLoop rng pow13 tc wc tasks iterations iter n st).2.1.attacker.chromosome := by
  intro n
  induction n with
  | zero => intro iter st _ hatt _ _ _; exact hatt
  | succ m ih =>
      intro iter st hpop hatt hbar hcha hdri
      obtain ⟨h1, h2, h3, h4, h5⟩ := choaStep_ok hpop hatt hbar hcha hdri hwc ht
      exact ih (iter + 1) _ h1 h2 h3 h4 h5

theorem runChoa_valid (rng pow13 : ℕ → ℚ) {tc : ℕ} {wc : ℤ} {tasks : List Task}
    (iterations psize : ℕ) (useOBL : Bool)
    (hr : ∀ n, 0 ≤ rng n ∧ rng n < 1) (htc : 0 < tc) (hwc : 1 ≤ wc)
    (hlen : tasks.length = tc) (hps : 0 < psize) :
    (runChoaAlgorithm rng pow13 tc wc tasks iterations psize useOBL).length = tc ∧
    ∀ g ∈ runChoaAlgorithm rng pow13 tc wc tasks iterations psize useOBL,
      ∃ z : ℤ, g = some z ∧ 0 ≤ z ∧ z < wc := by
  have ht : tasks ≠ [] := by
    intro hc
    rw [hc] at hlen
    simp at hlen
    omega
  unfold runChoaAlgorithm
  dsimp only
  set pop0 := createInitialPopulation rng 0 psize tc wc with hpop0
  set ev := pop0.map (fun ind =>
    { ind with fitness := calculateFitness ind.chromosome tasks }) with hev
  have hevOk : ∀ c ∈ ev, ChimpOk wc tc tasks c := by
    intro c hc
    rw [hev] at hc
    obtain ⟨orig, ho, rfl⟩ := List.mem_map.mp hc
    exact ⟨(createInitialPopulation_valid rng 0 hr hwc orig (hpop0 ▸ ho)), rfl⟩
  set pop1 := if useOBL then applyOBL ev wc tasks else ev with hpop1
  have hpop1Ok : ∀ c ∈ pop1, ChimpOk wc tc tasks c := by
    rw [hpop1]
    split
    · exact applyOBL_ok hevOk hwc
    · exact hevOk
  have hpop1len : pop1.length = psize := by
    rw [hpop1]
    have hevlen : ev.length = psize := by
      rw [hev, List.length_map, hpop0, createInitialPopulation_length]
    split
    · rw [applyOBL_length, hevlen]
    · exact hevlen
  have hpop1ne : pop1 ≠ [] := by
    intro hc
    rw [hc] at hpop1len
    simp at hpop1len
    omega
  obtain ⟨c0, hc0, hatt0⟩ := evaluateFitness_attacker_inf tasks pop1
    ⟨sentinelChimp, sentinelChimp, sentinelChimp, sentinelChimp⟩ hpop1ne rfl
  have hattValid : ChromValid wc tc
      ((evaluateFitness tasks pop1
        ⟨sentinelChimp, sentinelChimp, sentinelChimp, sentinelChimp⟩).2.attacker.chromosome) := by
    rw [hatt0]
    exact (hpop1Ok c0 hc0).1
  have hpop2Ok : ∀ c ∈ (evaluateFitness tasks pop1
      ⟨sentinelChimp, sentinelChimp, sentinelChimp, sentinelChimp⟩).1,
      ChimpOk wc tc tasks c := by
    intro c hc
    rw [evaluateFitness_fst] at hc
    obtain ⟨orig, ho, rfl⟩ := List.mem_map.mp hc
    exact evalInd_ok (hpop1Ok orig ho).1
  obtain ⟨s1, s2, s3, s4⟩ := evaluateFitness_slots tasks pop1
    ⟨sentinelChimp, sentinelChimp, sentinelChimp, sentinelChimp⟩
  have hbar : LeaderOk wc tc (evaluateFitness tasks pop1
      ⟨sentinelChimp, sentinelChimp, sentinelChimp, sentinelChimp⟩).2.barrier := by
    rcases s2 with h | ⟨c, hc, h⟩
    · rw [h]; exact Or.inl rfl
    · rw [h]; exact Or.inr (hpop1Ok c hc).1
  have hcha : LeaderOk wc tc (evaluateFitness tasks pop1
      ⟨sentinelChimp, sentinelChimp, sentinelChimp, sentinelChimp⟩).2.chaser := by
    rcases s3 with h | ⟨c, hc, h⟩
    · rw [h]; exact Or.inl rfl
    · rw [h]; exact Or.inr (hpop1Ok c hc).1
  have hdri : LeaderOk wc tc (evaluateFitness tasks pop1
      ⟨sentinelChimp, sentinelChimp, sentinelChimp, sentinelChimp⟩).2.driver := by
    rcases s4 with h | ⟨c, hc, h⟩
    · rw [h]; exact Or.inl rfl
    · rw [h]; exact Or.inr (hpop1Ok c hc).1
  have hfinal := choaLoop_ok rng pow13 tc wc tasks iterations hwc ht iterations 0
    ((evaluateFitness tasks pop1
      ⟨sentinelChimp, sentinelChimp, sentinelChimp, sentinelChimp⟩).1,
     (evaluateFitness tasks pop1
      ⟨sentinelChimp, sentinelChimp, sentinelChimp, sentinelChimp⟩).2,
     psize * tc)
    hpop2Ok hattValid hbar hcha hdri
  exact ⟨hfinal.1, hfinal.2⟩

end Choa

namespace Choa

theorem updateChimp_len (rng : ℕ → ℚ) (k : ℕ) (co : Coefficients)
    (tc : ℕ) (wc : ℤ) (A B C D : List Gene) (tasks : List Task) (chimp : Chimp)
    (h : chimp.chromosome.length = tc) :
    (updateChimp rng k co tc wc A B C D tasks chimp).chromosome.length = tc := by
  unfold updateChimp
  dsimp only
  split
  · simp
  · exact h

theorem choaStep_len {rng pow13 : ℕ → ℚ} {tc : ℕ} {wc : ℤ} {tasks : List Task}
    {iterations iter : ℕ} {st : List Chimp × Bests × ℕ}
    (hpop : ∀ c ∈ st.1, c.chromosome.length = tc)
    (hatt : st.2.1.attacker.chromosome.length = tc) :
    (∀ c ∈ (choaStep rng pow13 tc wc tasks iterations iter st).1,
      c.chromosome.length = tc) ∧
    (choaStep rng pow13 tc wc tasks iterations iter
      st).2.1.attacker.chromosome.length = tc := by
  unfold choaStep
  dsimp only
  set co := updateFandCoefficients pow13 iter iterations with hco
  set pop' := (updatePositions rng st.2.2 st.1 tc wc co st.2.1.attacker
    st.2.1.barrier st.2.1.chaser st.2.1.driver tasks).1 with hpop'
  have hpopLen' : ∀ c ∈ pop', c.chromosome.length = tc := by
    intro c hc
    rw [hpop'] at hc
    unfold updatePositions at hc
    obtain ⟨i, hi, rfl⟩ := List.mem_map.mp hc
    exact updateChimp_len _ _ _ _ _ _ _ _ _ _ _
      (hpop _ (getD_mem default (List.mem_range.mp hi)))
  obtain ⟨s1, _, _, _⟩ := evaluateFitness_slots tasks pop' st.2.1
  constructor
  · intro c hc
    rw [evaluateFitness_fst] at hc
    obtain ⟨orig, ho, rfl⟩ := List.mem_map.mp hc
    exact hpopLen' orig ho
  · rcases s1 with h | ⟨c, hc, h⟩
    · rw [h]; exact hatt
    · rw [h]; exact hpopLen' c hc

theorem choaLoop_len (rng pow13 : ℕ → ℚ) (tc : ℕ) (wc : ℤ) (tasks : List Task)
    (iterations : ℕ) :
    ∀ (n iter : ℕ) (st : List Chimp × Bests × ℕ),
      (∀ c ∈ st.1, c.chromosome.length = tc) →
      st.2.1.attacker.chromosome.length = tc →
      (choaLoop rng pow13 tc wc tasks iterations iter
        n st).2.1.attacker.chromosome.length = tc := by
  intro n
  induction n with
  | zero => intro iter st _ hatt; exact hatt
  | succ m ih =>
      intro iter st hpop hatt
      obtain ⟨h1, h2⟩ := choaStep_len hpop hatt
      exact ih (iter + 1) _ h1 h2

theorem runChoa_length (rng pow13 : ℕ → ℚ) (tc : ℕ) (wc : ℤ) (tasks : List Task)
    (iterations psize : ℕ) (useOBL : Bool) (hps : 0 < psize) :
    (runChoaAlgorithm rng pow13 tc wc tasks iterations psize useOBL).length = tc := by
  unfold runChoaAlgorithm
  dsimp only
  set pop0 := createInitialPopulation rng 0 psize tc wc with hpop0
  set ev := pop0.map (fun ind =>
    { ind with fitness := calculateFitness ind.chromosome tasks }) with hev
  have hevLen : ∀ c ∈ ev, c.chromosome.length = tc := by
    intro c hc
    rw [hev] at hc
    obtain ⟨orig, ho, rfl⟩ := List.mem_map.mp hc
    rw [hpop0] at ho
    unfold createInitialPopulation at ho
    obtain ⟨i, _, rfl⟩ := List.mem_map.mp ho
    unfold createIndividual
    simp
  set pop1 := if useOBL then applyOBL ev wc tasks else ev with hpop1
  have hpop1Len : ∀ c ∈ pop1, c.chromosome.length = tc := by
    rw [hpop1]
    split
    · intro c hc
      unfold applyOBL at hc
      have hc3 := mem_sortOrd (List.mem_of_mem_take hc)
      rcases List.mem_append.mp hc3 with h | h
      · exact hevLen c h
      · obtain ⟨ind, hind, rfl⟩ := List.mem_map.mp h
        unfold oppositeChromosome
        rw [List.length_map]
        exact hevLen ind hind
    · exact hevLen
  have hpop1lenN : pop1.length = psize := by
    rw [hpop1]
    have hevlen : ev.length = psize := by
      rw [hev, List.length_map, hpop0, createInitialPopulation_length]
    split
    · rw [applyOBL_length, hevlen]
    · exact hevlen
  have hpop1ne : pop1 ≠ [] := by
    intro hc
    rw [hc] at hpop1lenN
    simp at hpop1lenN
    omega
  obtain ⟨c0, hc0, hatt0⟩ := evaluateFitness_attacker_inf tasks pop1
    ⟨sentinelChimp, sentinelChimp, sentinelChimp, sentinelChimp⟩ hpop1ne rfl
  have hpop2Len : ∀ c ∈ (evaluateFitness tasks pop1
      ⟨sentinelChimp, sentinelChimp, sentinelChimp, sentinelChimp⟩).1,
      c.chromosome.length = tc := by
    intro c hc
    rw [evaluateFitness_fst] at hc
    obtain ⟨orig, ho, rfl⟩ := List.mem_map.mp hc
    exact hpop1Len orig ho
  have hattLen : ((evaluateFitness tasks pop1
      ⟨sentinelChimp, sentinelChimp, sentinelChimp,
        sentinelChimp⟩).2.attacker.chromosome.length) = tc := by
    rw [hatt0]
    exact hpop1Len c0 hc0
  exact choaLoop_len rng pow13 tc wc tasks iterations iterations 0 _
    hpop2Len hattLen

end Choa

theorem Fitness.blt_self (a : Fitness) : Fitness.blt a a = false := by
  cases a <;> simp [Fitness.blt]

namespace Choa

theorem evalOne_eq_attacker (tasks : List Task) (b : Bests) (ind : Chimp)
    (h : calculateFitness ind.chromosome tasks = b.attacker.fitness) :
    (evalOne tasks b ind).2 = b := by
  unfold evalOne
  dsimp only
  rw [h, Fitness.blt_self]
  simp

theorem evalOne_no_update (tasks : List Task) (b : Bests) (ind : Chimp)
    (hAB : Fitness.le b.attacker.fitness b.barrier.fitness)
    (hBC : Fitness.le b.barrier.fitness b.chaser.fitness)
    (hCD : Fitness.le b.chaser.fitness b.driver.fitness)
    (heq : calculateFitness ind.chromosome tasks = b.attacker.fitness ∨
      calculateFitness ind.chromosome tasks = b.barrier.fitness ∨
      calculateFitness ind.chromosome tasks = b.chaser.fitness ∨
      calculateFitness ind.chromosome tasks = b.driver.fitness) :
    (evalOne tasks b ind).2 = b := by
  have hAC : Fitness.le b.attacker.fitness b.chaser.fitness :=
    Fitness.le_trans hAB hBC
  have hAD : Fitness.le b.attacker.fitness b.driver.fitness :=
    Fitness.le_trans hAC hCD
  have hBD : Fitness.le b.barrier.fitness b.driver.fitness :=
    Fitness.le_trans hBC hCD
  unfold evalOne
  dsimp only
  rcases heq with h | h | h | h <;> rw [h]
  · rw [Fitness.blt_self]
    simp
  · have h1 : Fitness.blt b.barrier.fitness b.attacker.fitness = false := hAB
    rw [h1, Fitness.blt_self]
    simp
  · have h1 : Fitness.blt b.chaser.fitness b.attacker.fitness = false := hAC
    have h2 : Fitness.blt b.chaser.fitness b.barrier.fitness = false := hBC
    rw [h1, h2, Fitness.blt_self]
    simp
  · have h1 : Fitness.blt b.driver.fitness b.attacker.fitness = false := hAD
    have h2 : Fitness.blt b.driver.fitness b.barrier.fitness = false := hBD
    have h3 : Fitness.blt b.driver.fitness b.chaser.fitness = false := hCD
    rw [h1, h2, h3, Fitness.blt_self]
    simp

theorem evaluateFitness_const (tasks : List Task) :
    ∀ (rest : List Chimp) (b : Bests),
      (∀ c ∈ rest, calculateFitness c.chromosome tasks = b.attacker.fitness) →
      (evaluateFitness tasks rest b).2 = b := by
  intro rest
  induction rest with
  | nil => intro b _; rfl
  | cons c cs ih =>
      intro b hq
      rw [evaluateFitness_cons]
      have hb' : (evalOne tasks b c).2 = b :=
        evalOne_eq_attacker tasks b c (hq c (List.mem_cons_self c cs))
      dsimp only
      rw [hb']
      exact ih b (fun x hx => hq x (List.mem_cons_of_mem c hx))

theorem evalOne_sentinels (tasks : List Task) (ind : Chimp) :
    (evalOne tasks
      ⟨sentinelChimp, sentinelChimp, sentinelChimp, sentinelChimp⟩ ind).2 =
      ⟨evalInd tasks ind, sentinelChimp, sentinelChimp, sentinelChimp⟩ := by
  unfold evalOne
  dsimp only
  have hblt : Fitness.blt (calculateFitness ind.chromosome tasks)
      sentinelChimp.fitness = true :=
    Fitness.lt_inf_of_ne_inf (calc_ne_inf _ _)
  rw [if_pos hblt]
  rfl

theorem evaluateFitness_all_equal (tasks : List Task) (ind : Chimp)
    (rest : List Chimp)
    (hq : ∀ c ∈ rest, calculateFitness c.chromosome tasks =
      calculateFitness ind.chromosome tasks) :
    (evaluateFitness tasks (ind :: rest)
      ⟨sentinelChimp, sentinelChimp, sentinelChimp, sentinelChimp⟩).2 =
      ⟨evalInd tasks ind, sentinelChimp, sentinelChimp, sentinelChimp⟩ := by
  rw [evaluateFitness_cons]
  dsimp only
  rw [evalOne_sentinels]
  exact evaluateFitness_const tasks rest _ (fun c hc => hq c hc)

theorem oppositeChromosome_get? (wc : ℤ) (chrom : List Gene) (i : ℕ) (g : ℤ)
    (h : chrom.get? i = some (some g)) :
    (oppositeChromosome wc chrom).get? i = some (some (wc - 1 - g)) := by
  unfold oppositeChromosome
  rw [List.get?_map, h]
  rfl

end Choa

namespace GA

theorem generateOppositeChromosome_get? (dc : ℤ) (genes : List ℤ) (i : ℕ) (v : ℤ)
    (h : genes.get? i = some v) :
    (generateOppositeChromosome dc genes).get? i =
      some ((dc * 9 - 1) + (dc - 1) * 9 - v) := by
  unfold generateOppositeChromosome
  rw [List.get?_map, h]
  rfl

end GA

/-! ## GA driver lemmas -/

namespace GA

theorem dedup_replicate {n : ℕ} (hn : 1 ≤ n) (w : ℤ) :
    (List.replicate n w).dedup = [w] := by
  induction n with
  | zero => omega
  | succ m ih =>
      rw [List.replicate_succ]
      by_cases hm : 1 ≤ m
      · rw [List.dedup_cons_of_mem (List.mem_replicate.mpr ⟨by omega, rfl⟩)]
        exact ih hm
      · have hm0 : m = 0 := by omega
        subst hm0
        simp

theorem calcFitness_replicate {n : ℕ} (hn : 1 ≤ n) (w : ℤ) :
    calcFitness (List.replicate n w) = 1 := by
  unfold calcFitness
  rw [dedup_replicate hn w]
  simp [maxOf, minOf, List.count_replicate]

theorem foldl_min_le_iff : ∀ (l : List ℚ) (a x : ℚ),
    l.foldl min x ≤ a ↔ x ≤ a ∨ ∃ y ∈ l, y ≤ a := by
  intro l
  induction l with
  | nil => intro a x; simp
  | cons b bs ih =>
      intro a x
      simp only [List.foldl_cons, ih, min_le_iff, List.mem_cons]
      constructor
      · rintro (⟨h | h⟩ | ⟨y, hy, h⟩)
        · exact Or.inl h
        · exact Or.inr ⟨b, Or.inl rfl, h⟩
        · exact Or.inr ⟨y, Or.inr hy, h⟩
      · rintro (h | ⟨y, hy | hy, h⟩)
        · exact Or.inl (Or.inl h)
        · exact Or.inl (Or.inr (hy ▸ h))
        · exact Or.inr ⟨y, hy, h⟩

theorem minOf_le_of_mem {l : List ℚ} {a : ℚ} (h : a ∈ l) : minOf l ≤ a := by
  unfold minOf
  exact (foldl_min_le_iff l a (l.headD 0)).mpr (Or.inr ⟨a, h, le_rfl⟩)

theorem calcFitness_le_one {genes : List ℤ} (h : genes ≠ []) :
    calcFitness genes ≤ 1 := by
  unfold calcFitness
  have hded : genes.dedup ≠ [] := by
    simpa [List.dedup_eq_nil] using h
  have hne : (genes.dedup.map (fun g => (genes.count g : ℚ))).isEmpty = false := by
    simp [List.isEmpty_iff, hded]
  simp only [hne, Bool.false_eq_true, if_false]
  set loads := genes.dedup.map (fun g => (genes.count g : ℚ)) with hloads
  have hlne : loads ≠ [] := by
    rw [hloads]
    simpa using hded
  have hminmax : minOf loads ≤ maxOf loads := minOf_le_of_mem (maxOf_mem hlne)
  have hpos : (0 : ℚ) < maxOf loads - minOf loads + 1 := by linarith
  rw [div_le_one hpos]
  linarith

theorem randIndex_lt (rng : ℕ → ℚ) (k : ℕ) {n : ℕ}
    (hr : 0 ≤ rng k ∧ rng k < 1) (hn : 0 < n) : randIndex rng k n < n := by
  unfold randIndex
  have hnq : (0 : ℚ) < (n : ℚ) := by exact_mod_cast hn
  have h0 : 0 ≤ ⌊rng k * (n : ℚ)⌋ :=
    Int.floor_nonneg.mpr (mul_nonneg hr.1 hnq.le)
  have h1 : ⌊rng k * (n : ℚ)⌋ < (n : ℤ) := by
    apply Int.floor_lt.mpr
    have := mul_lt_mul_of_pos_right hr.2 hnq
    rw [one_mul] at this
    exact_mod_cast this
  omega

theorem tournamentPick_mem (rng : ℕ → ℚ) (k : ℕ) {pop : List Chrom}
    (hr : ∀ n, 0 ≤ rng n ∧ rng n < 1) (hne : pop ≠ []) :
    tournamentPick rng k pop ∈ pop := by
  have hn : 0 < pop.length := List.length_pos.mpr hne
  have m0 : pop.getD (randIndex rng k pop.length) default ∈ pop :=
    getD_mem default (randIndex_lt rng k (hr k) hn)
  have m1 : pop.getD (randIndex rng (k+1) pop.length) default ∈ pop :=
    getD_mem default (randIndex_lt rng (k+1) (hr (k+1)) hn)
  have m2 : pop.getD (randIndex rng (k+2) pop.length) default ∈ pop :=
    getD_mem default (randIndex_lt rng (k+2) (hr (k+2)) hn)
  unfold tournamentPick
  dsimp only
  split_ifs <;> first | exact m0 | exact m1 | exact m2

theorem crossover_ok (rng : ℕ → ℚ) (k : ℕ) (pc : ℚ) {p1 p2 : Chrom}
    {M : ℤ} {tc : ℕ} (h1 : GenesOk M tc p1) (h2 : GenesOk M tc p2) :
    GenesOk M tc (crossover rng k pc p1 p2).1 ∧
    GenesOk M tc (crossover rng k pc p1 p2).2.1 := by
  unfold crossover
  dsimp only
  split
  · constructor <;> constructor
    · simp [h1.1]
    · intro g hg
      obtain ⟨i, hi, rfl⟩ := List.mem_map.mp hg
      have hi1 : i < p1.genes.length := List.mem_range.mp hi
      have hi2 : i < p2.genes.length := by rw [h2.1, ← h1.1]; exact hi1
      split
      · exact h1.2 _ (getD_mem 0 hi1)
      · exact h2.2 _ (getD_mem 0 hi2)
    · simp [h1.1]
    · intro g hg
      obtain ⟨i, hi, rfl⟩ := List.mem_map.mp hg
      have hi1 : i < p1.genes.length := List.mem_range.mp hi
      have hi2 : i < p2.genes.length := by rw [h2.1, ← h1.1]; exact hi1
      split
      · exact h2.2 _ (getD_mem 0 hi2)
      · exact h1.2 _ (getD_mem 0 hi1)
  · exact ⟨⟨h1.1, h1.2⟩, ⟨h2.1, h2.2⟩⟩

theorem mutateGenes_bounds (rng : ℕ → ℚ) (pm : ℚ) {M : ℤ}
    (hr : ∀ n, 0 ≤ rng n ∧ rng n < 1) (hM : 9 ≤ M) :
    ∀ (gs : List ℤ) (k : ℕ), (∀ g ∈ gs, 0 ≤ g ∧ g < M) →
      (mutateGenes rng pm 1 gs k).1.length = gs.length ∧
      ∀ g ∈ (mutateGenes rng pm 1 gs k).1, 0 ≤ g ∧ g < M := by
  intro gs
  induction gs with
  | nil =>
      intro k _
      refine ⟨rfl, ?_⟩
      intro g hg
      exact absurd hg (List.not_mem_nil g)
  | cons g0 tail ih =>
      intro k hg
      obtain ⟨ihl, ihb⟩ := ih (k+2) (fun x hx => hg x (List.mem_cons_of_mem _ hx))
      obtain ⟨ihl1, ihb1⟩ := ih (k+1) (fun x hx => hg x (List.mem_cons_of_mem _ hx))
      unfold mutateGenes
      dsimp only
      split
      · constructor
        · simp [ihl]
        · intro x hx
          rcases List.mem_cons.mp hx with rfl | hx
          · have hcast : (((1 : ℤ) * 9 - 1 : ℤ) : ℚ) - (((1 - 1 : ℤ) * 9 : ℤ) : ℚ) + 1
                = (9 : ℚ) := by push_cast; ring
            have h0 : 0 ≤ ⌊rng (k+1) * (9 : ℚ)⌋ :=
              Int.floor_nonneg.mpr (mul_nonneg (hr (k+1)).1 (by norm_num))
            have h1 : ⌊rng (k+1) * (9 : ℚ)⌋ < 9 := by
              apply Int.floor_lt.mpr
              have := mul_lt_mul_of_pos_right (hr (k+1)).2 (by norm_num : (0:ℚ) < 9)
              rw [one_mul] at this
              exact_mod_cast this
            rw [hcast]
            omega
          · exact ihb x hx
      · constructor
        · simp [ihl1]
        · intro x hx
          rcases List.mem_cons.mp hx with rfl | hx
          · exact hg x (List.mem_cons_self _ _)
          · exact ihb1 x hx

end GA

namespace GA

theorem genOffspring_length (rng : ℕ → ℚ) (dc : ℤ) (pc pm : ℚ)
    (pop : List Chrom) : ∀ (need k : ℕ),
    (genOffspring rng dc pc pm pop need k).1.length = need := by
  intro need
  induction need using Nat.strong_induction_on with
  | _ need ih =>
      match need with
      | 0 => intro k; rfl
      | 1 =>
          intro k
          unfold genOffspring
          rfl
      | n + 2 =>
          intro k
          unfold genOffspring
          dsimp only
          simp only [List.length_cons]
          rw [ih n (by omega)]

theorem mutateGenes_length (rng : ℕ → ℚ) (pm : ℚ) (dc : ℤ) :
    ∀ (gs : List ℤ) (k : ℕ), (mutateGenes rng pm dc gs k).1.length = gs.length := by
  intro gs
  induction gs with
  | nil => intro k; rfl
  | cons g0 tail ih =>
      intro k
      unfold mutateGenes
      dsimp only
      split
      · simp [ih (k+2)]
      · simp [ih (k+1)]

theorem genOffspring_ok (rng : ℕ → ℚ) (pc pm : ℚ) {pop : List Chrom}
    {M : ℤ} {tc : ℕ} (hr : ∀ n, 0 ≤ rng n ∧ rng n < 1) (hM : 9 ≤ M)
    (hpop : ∀ c ∈ pop, GenesOk M tc c) (hne : pop ≠ []) :
    ∀ (need k : ℕ), ∀ c ∈ (genOffspring rng 1 pc pm pop need k).1,
      GenesOk M tc c := by
  intro need
  induction need using Nat.strong_induction_on with
  | _ need ih =>
      match need with
      | 0 =>
          intro k c hc
          exact absurd hc (List.not_mem_nil c)
      | 1 =>
          intro k c hc
          unfold genOffspring at hc
          dsimp only at hc
          have hp1 := tournamentPick_mem rng k hr hne
          have hp2 := tournamentPick_mem rng (k+3) hr hne
          obtain ⟨ho1, _⟩ := crossover_ok rng (k+6) pc (hpop _ hp1) (hpop _ hp2)
          rcases List.mem_cons.mp hc with rfl | hc2
          · obtain ⟨hl, hb⟩ := mutateGenes_bounds rng pm hr hM _ _ ho1.2
            exact ⟨by rw [hl]; exact ho1.1, hb⟩
          · exact absurd hc2 (List.not_mem_nil _)
      | n + 2 =>
          intro k c hc
          unfold genOffspring at hc
          dsimp only at hc
          have hp1 := tournamentPick_mem rng k hr hne
          have hp2 := tournamentPick_mem rng (k+3) hr hne
          obtain ⟨ho1, ho2⟩ := crossover_ok rng (k+6) pc (hpop _ hp1) (hpop _ hp2)
          rcases List.mem_cons.mp hc with rfl | hc2
          · obtain ⟨hl, hb⟩ := mutateGenes_bounds rng pm hr hM _ _ ho1.2
            exact ⟨by rw [hl]; exact ho1.1, hb⟩
          · rcases List.mem_cons.mp hc2 with rfl | hc3
            · obtain ⟨hl, hb⟩ := mutateGenes_bounds rng pm hr hM _ _ ho2.2
              exact ⟨by rw [hl]; exact ho2.1, hb⟩
            · exact ih n (by omega) _ c hc3

end GA

namespace GA

theorem sortByFitness_length (l : List Chrom) :
    (sortByFitness l).length = l.length := by
  unfold sortByFitness
  exact sortOrd_length _ l

theorem mem_sortByFitness {l : List Chrom} {c : Chrom}
    (h : c ∈ sortByFitness l) : c ∈ l := mem_sortOrd h

theorem nextGeneration_length (rng : ℕ → ℚ) (dc : ℤ) (pc pm : ℚ)
    (psize : ℕ) (pop : List Chrom) (k : ℕ) (h : 1 ≤ psize) :
    (nextGeneration rng dc pc pm psize pop k).1.length = psize := by
  unfold nextGeneration
  dsimp only
  rw [sortByFitness_length, List.length_map, List.length_cons,
    genOffspring_length]
  omega

theorem nextGeneration_ok (rng : ℕ → ℚ) (pc pm : ℚ) (psize : ℕ)
    {pop : List Chrom} {M : ℤ} {tc : ℕ} (k : ℕ)
    (hr : ∀ n, 0 ≤ rng n ∧ rng n < 1) (hM : 9 ≤ M)
    (hpop : ∀ c ∈ pop, GenesOk M tc c) (hne : pop ≠ []) :
    ∀ c ∈ (nextGeneration rng 1 pc pm psize pop k).1, GenesOk M tc c := by
  intro c hc
  unfold nextGeneration at hc
  dsimp only at hc
  have hc2 := mem_sortByFitness hc
  obtain ⟨orig, ho, rfl⟩ := List.mem_map.mp hc2
  have hsne : sortByFitness pop ≠ [] := by
    intro hcon
    apply hne
    have := sortByFitness_length pop
    rw [hcon] at this
    exact List.length_eq_zero.mp this.symm
  have hsok : ∀ c ∈ sortByFitness pop, GenesOk M tc c :=
    fun c hc => hpop c (mem_sortByFitness hc)
  have horig : GenesOk M tc orig := by
    rcases List.mem_cons.mp ho with rfl | hoff
    · exact hsok _ (headD_mem default hsne)
    · exact genOffspring_ok rng pc pm hr hM hsok hsne _ _ _ hoff
  exact ⟨horig.1, horig.2⟩

theorem runGAStep_pop_length (rng : ℕ → ℚ) (dc : ℤ) (pc pm : ℚ)
    (psize : ℕ) (st : GAState) (h : 1 ≤ psize) :
    (runGAStep rng dc pc pm psize st).pop.length = psize := by
  unfold runGAStep
  dsimp only
  split <;> exact nextGeneration_length rng dc pc pm psize st.pop st.k h

theorem runGAStep_ok (rng : ℕ → ℚ) (pc pm : ℚ) (psize : ℕ)
    {M : ℤ} {tc : ℕ} {st : GAState}
    (hr : ∀ n, 0 ≤ rng n ∧ rng n < 1) (hM : 9 ≤ M) (hps : 1 ≤ psize)
    (hpop : ∀ c ∈ st.pop, GenesOk M tc c) (hne : st.pop ≠ [])
    (hgbP : st.gbP.length = tc ∧ ∀ g ∈ st.gbP, 0 ≤ g ∧ g < M) :
    (∀ c ∈ (runGAStep rng 1 pc pm psize st).pop, GenesOk M tc c) ∧
    (runGAStep rng 1 pc pm psize st).pop ≠ [] ∧
    ((runGAStep rng 1 pc pm psize st).gbP.length = tc ∧
      ∀ g ∈ (runGAStep rng 1 pc pm psize st).gbP, 0 ≤ g ∧ g < M) := by
  have hlen := nextGeneration_length rng 1 pc pm psize st.pop st.k hps
  have hok := nextGeneration_ok rng pc pm psize st.k hr hM hpop hne
  have hne2 : (nextGeneration rng 1 pc pm psize st.pop st.k).1 ≠ [] := by
    intro hcon
    rw [hcon] at hlen
    simp at hlen
    omega
  have hbest : GenesOk M tc
      ((nextGeneration rng 1 pc pm psize st.pop st.k).1.headD default) :=
    hok _ (headD_mem default hne2)
  unfold runGAStep
  dsimp only
  split
  · exact ⟨hok, hne2, hbest.1, hbest.2⟩
  · exact ⟨hok, hne2, hgbP.1, hgbP.2⟩

theorem runGAIter_ok (rng : ℕ → ℚ) (pc pm : ℚ) (psize : ℕ)
    {M : ℤ} {tc : ℕ}
    (hr : ∀ n, 0 ≤ rng n ∧ rng n < 1) (hM : 9 ≤ M) (hps : 1 ≤ psize) :
    ∀ (n : ℕ) (st : GAState),
      (∀ c ∈ st.pop, GenesOk M tc c) → st.pop ≠ [] →
      (st.gbP.length = tc ∧ ∀ g ∈ st.gbP, 0 ≤ g ∧ g < M) →
      ((runGAIter rng 1 pc pm psize n st).gbP.length = tc ∧
        ∀ g ∈ (runGAIter rng 1 pc pm psize n st).gbP, 0 ≤ g ∧ g < M) := by
  intro n
  induction n with
  | zero => intro st _ _ hgbP; exact hgbP
  | succ m ih =>
      intro st hpop hne hgbP
      obtain ⟨h1, h2, h3⟩ := runGAStep_ok rng pc pm psize hr hM hps hpop hne hgbP
      exact ih _ h1 h2 h3

theorem runGA_valid (rng : ℕ → ℚ) (pc pm : ℚ)
    (iterations psize tc : ℕ) (pop : List Chrom) (k : ℕ) {M : ℤ}
    (hr : ∀ n, 0 ≤ rng n ∧ rng n < 1) (hM : 9 ≤ M) (hps : 1 ≤ psize)
    (hpop : ∀ c ∈ pop, GenesOk M tc c) (hne : pop ≠ []) :
    (runGA rng 1 pc pm iterations psize tc pop k).gbP.length = tc ∧
    ∀ g ∈ (runGA rng 1 pc pm iterations psize tc pop k).gbP,
      0 ≤ g ∧ g < M := by
  unfold runGA
  dsimp only
  apply runGAIter_ok rng pc pm psize hr hM hps iterations
  · intro c hc
    obtain ⟨c0, hc0, rfl⟩ := List.mem_map.mp hc
    exact ⟨(hpop c0 hc0).1, (hpop c0 hc0).2⟩
  · simpa using hne
  · constructor
    · simp
    · intro g hg
      rw [List.eq_of_mem_replicate hg]
      omega

theorem geneticAlgorithm_valid (rng : ℕ → ℚ) {population : List BatInd}
    (iterations : ℕ) {wc : ℤ}
    (hr : ∀ n, 0 ≤ rng n ∧ rng n < 1) (hne : population ≠ [])
    (hpos : ∀ ind ∈ population,
      ind.position.length = (population.headD default).position.length ∧
      ∀ g ∈ ind.position, 0 ≤ g ∧ g < wc) :
    (geneticAlgorithm rng population iterations).length =
      (population.headD default).position.length ∧
    ∀ g ∈ geneticAlgorithm rng population iterations,
      0 ≤ g ∧ g < max wc 9 := by
  have hlenpop : 0 < population.length := List.length_pos.mpr hne
  unfold geneticAlgorithm
  dsimp only
  apply runGA_valid rng (4/5) (1/10) iterations population.length _ _ _ hr
    (le_max_right wc 9) (by omega)
  · intro c hc
    obtain ⟨i, hi, rfl⟩ := List.mem_map.mp hc
    have hi2 : i < population.length := List.mem_range.mp hi
    have hmem := @getD_mem BatInd population i default hi2
    obtain ⟨hl, hb⟩ := hpos _ hmem
    refine ⟨hl, ?_⟩
    intro g hg
    obtain ⟨h0, h1⟩ := hb g hg
    exact ⟨h0, lt_of_lt_of_le h1 (le_max_left wc 9)⟩
  · intro hcon
    rw [List.map_eq_nil] at hcon
    have := List.range_eq_nil.mp hcon
    omega

end GA

namespace GA

theorem runGAStep_gbF (rng : ℕ → ℚ) (dc : ℤ) (pc pm : ℚ) (psize : ℕ)
    (st : GAState) :
    Fitness.le st.gbF (runGAStep rng dc pc pm psize st).gbF ∧
    ((runGAStep rng dc pc pm psize st).gbF ≠ st.gbF ↔
      Fitness.lt st.gbF (.fin (bestObserved rng dc pc pm psize st))) := by
  unfold runGAStep bestObserved
  dsimp only
  split
  next h =>
    refine ⟨Fitness.le_of_lt h, ?_⟩
    constructor
    · exact fun _ => h
    · intro _ heq
      rw [← heq] at h
      rw [Fitness.blt_self] at h
      exact Bool.false_ne_true h
  next h =>
    refine ⟨Fitness.le_refl _, ?_⟩
    constructor
    · intro hne; exact absurd rfl hne
    · intro hlt; exact absurd hlt h

theorem runGAIter_add (rng : ℕ → ℚ) (dc : ℤ) (pc pm : ℚ) (psize : ℕ) :
    ∀ (a b : ℕ) (st : GAState),
      runGAIter rng dc pc pm psize (a + b) st =
        runGAIter rng dc pc pm psize b (runGAIter rng dc pc pm psize a st) := by
  intro a
  induction a with
  | zero =>
      intro b st
      rw [Nat.zero_add]
      rfl
  | succ m ih =>
      intro b st
      have h1 : m + 1 + b = (m + b) + 1 := by omega
      rw [h1]
      show runGAIter rng dc pc pm psize (m + b)
        (runGAStep rng dc pc pm psize st) = _
      rw [ih b (runGAStep rng dc pc pm psize st)]
      rfl

theorem runGAIter_mono (rng : ℕ → ℚ) (dc : ℤ) (pc pm : ℚ) (psize : ℕ) :
    ∀ (n : ℕ) (st : GAState),
      Fitness.le st.gbF (runGAIter rng dc pc pm psize n st).gbF := by
  intro n
  induction n with
  | zero => intro st; exact Fitness.le_refl _
  | succ m ih =>
      intro st
      exact Fitness.le_trans (runGAStep_gbF rng dc pc pm psize st).1 (ih _)

theorem length_bind_pair {α β : Type} (f : α → List β)
    (hf : ∀ a, (f a).length = 2) :
    ∀ l : List α, (l.bind f).length = 2 * l.length := by
  intro l
  induction l with
  | nil => rfl
  | cons a as ih =>
      have hcons : (a :: as).bind f = f a ++ as.bind f := rfl
      rw [hcons, List.length_append, ih, hf a, List.length_cons]
      omega

theorem initializePopulation_length (rng : ℕ → ℚ) (k : ℕ)
    (psize tc : ℕ) (dc : ℤ) :
    (initializePopulation rng k psize tc dc).length = 2 * psize := by
  unfold initializePopulation
  rw [length_bind_pair (fun (i : ℕ) =>
      let genes := generateRandomChromosome rng (k + i * tc) tc dc
      let oppositeGenes := generateOppositeChromosome dc genes
      [withIdAndGenes (i : ℤ) genes,
       withIdAndGenes ((i : ℤ) + (psize : ℤ)) oppositeGenes])
    (fun a => rfl) (List.range psize), List.length_range]

end GA

theorem crng_bounds (n : ℕ) : 0 ≤ crng n ∧ crng n < 1 := by
  unfold crng
  rcases Nat.lt_or_ge n 22 with h | h
  · interval_cases n <;> norm_num
  · rw [List.getD_eq_default]
    · norm_num
    · simp
      omega

/-! # Claim theorems

The kernel can evaluate the concrete runs below once the arithmetic on `ℚ`
is unfolded; the reducibility change only widens definitional unfolding for
the final evaluations and adds no axiom. -/

set_option allowUnsafeReducibility true

attribute [local semireducible] Rat.add Rat.mul Rat.sub Rat.div Rat.neg Rat.inv

/-- Claim C1, counterexample: with two valid individuals over `workerCount = 2`
(all positions in `[0, 2)`, three tasks) and a realizable `Math.random` stream,
the GA driver returns `[8, 8, 8]` — the mutation operator draws from the fixed
datacenter window `[0, 9)` regardless of the worker count, so the output is not
inside `[0, workerCount)`. -/
theorem claim1_counterexample :
    (∀ ind ∈ ([⟨[0, 0, 1]⟩, ⟨[1, 1, 0]⟩] : List GA.BatInd),
      ind.position.length = 3 ∧ ∀ g ∈ ind.position, 0 ≤ g ∧ g < 2) ∧
    (∀ n, 0 ≤ crng n ∧ crng n < 1) ∧
    GA.geneticAlgorithm crng [⟨[0, 0, 1]⟩, ⟨[1, 1, 0]⟩] 1 = [8, 8, 8] ∧
    ¬ ∀ g ∈ GA.geneticAlgorithm crng [⟨[0, 0, 1]⟩, ⟨[1, 1, 0]⟩] 1,
        0 ≤ g ∧ g < 2 := by
  have hrun : GA.geneticAlgorithm crng [⟨[0, 0, 1]⟩, ⟨[1, 1, 0]⟩] 1 =
      [8, 8, 8] := by decide
  refine ⟨by decide, crng_bounds, hrun, ?_⟩
  intro hcon
  have hmem : (8 : ℤ) ∈ GA.geneticAlgorithm crng [⟨[0, 0, 1]⟩, ⟨[1, 1, 0]⟩] 1 := by
    rw [hrun]
    decide
  have h8 := (hcon 8 hmem).2
  norm_num at h8

/-- Claim C1, amended: for every valid input (and every realizable random
stream) the swarm driver `runChoaAlgorithm` returns a vector of length exactly
`taskCount` whose entries are integers in `[0, workerCount)`; the GA driver
(`geneticAlgorithm`) returns a vector of length exactly `taskCount` whose
entries are integers in `[0, max workerCount 9)` — initial genes come from
`[0, workerCount)` but mutation redraws from the fixed 9-wide datacenter
window, so `[0, workerCount)` itself holds only when `workerCount ≥ 9`. -/
theorem claim1_theorem :
    (∀ (rng pow13 : ℕ → ℚ) (tc : ℕ) (wc : ℤ) (tasks : List Choa.Task)
        (iterations psize : ℕ) (useOBL : Bool),
      (∀ n, 0 ≤ rng n ∧ rng n < 1) → 0 < tc → 1 ≤ wc → tasks.length = tc →
      0 < psize →
      (Choa.runChoaAlgorithm rng pow13 tc wc tasks iterations psize
        useOBL).length = tc ∧
      ∀ g ∈ Choa.runChoaAlgorithm rng pow13 tc wc tasks iterations psize useOBL,
        ∃ z : ℤ, g = some z ∧ 0 ≤ z ∧ z < wc) ∧
    (∀ (rng : ℕ → ℚ) (population : List GA.BatInd) (iterations : ℕ) (wc : ℤ),
      (∀ n, 0 ≤ rng n ∧ rng n < 1) → population ≠ [] →
      (∀ ind ∈ population,
        ind.position.length = (population.headD default).position.length ∧
        ∀ g ∈ ind.position, 0 ≤ g ∧ g < wc) →
      (GA.geneticAlgorithm rng population iterations).length =
        (population.headD default).position.length ∧
      ∀ g ∈ GA.geneticAlgorithm rng population iterations,
        0 ≤ g ∧ g < max wc 9) := by
  constructor
  · intro rng pow13 tc wc tasks iterations psize useOBL hr htc hwc hlen hps
    exact Choa.runChoa_valid rng pow13 iterations psize useOBL hr htc hwc hlen hps
  · intro rng population iterations wc hr hne hpos
    exact GA.geneticAlgorithm_valid rng iterations hr hne hpos

/-- Claim C1, witness: both halves of the amended statement instantiated at
concrete inputs. -/
theorem claim1_witness :
    ((∀ n, 0 ≤ czero n ∧ czero n < 1) ∧ 0 < 1 ∧ (1 : ℤ) ≤ 1 ∧
      ([⟨"ringan"⟩] : List Choa.Task).length = 1) ∧
    ((Choa.runChoaAlgorithm czero cpow 1 1 [⟨"ringan"⟩] 1 1 true).length = 1 ∧
      ∀ g ∈ Choa.runChoaAlgorithm czero cpow 1 1 [⟨"ringan"⟩] 1 1 true,
        ∃ z : ℤ, g = some z ∧ 0 ≤ z ∧ z < 1) ∧
    ((GA.geneticAlgorithm czero [⟨[0]⟩] 1).length = 1 ∧
      ∀ g ∈ GA.geneticAlgorithm czero [⟨[0]⟩] 1, 0 ≤ g ∧ g < max 1 9) := by
  have hz : ∀ n, 0 ≤ czero n ∧ czero n < 1 := fun n => by
    constructor <;> norm_num [czero]
  refine ⟨⟨hz, by norm_num, by norm_num, rfl⟩, ?_, ?_⟩
  · exact claim1_theorem.1 czero cpow 1 1 [⟨"ringan"⟩] 1 1 true hz
      (by norm_num) (by norm_num) rfl (by norm_num)
  · exact claim1_theorem.2 czero [⟨[0]⟩] 1 1 hz (by simp) (by decide)

/-- Claim C2: under the GA driver the tracked best-ever fitness is monotone
non-decreasing across generations (for any two generation counts `i ≤ j` of
any run), and one generation updates it exactly when the freshly sorted
generation best strictly exceeds it. -/
theorem claim2_theorem (rng : ℕ → ℚ) (dc : ℤ) (pc pm : ℚ) (psize : ℕ)
    (s0 : GA.GAState) (i j n : ℕ) (hij : i ≤ j) :
    Fitness.le (GA.runGAIter rng dc pc pm psize i s0).gbF
      (GA.runGAIter rng dc pc pm psize j s0).gbF ∧
    ((GA.runGAStep rng dc pc pm psize
        (GA.runGAIter rng dc pc pm psize n s0)).gbF ≠
        (GA.runGAIter rng dc pc pm psize n s0).gbF ↔
      Fitness.lt (GA.runGAIter rng dc pc pm psize n s0).gbF
        (.fin (GA.bestObserved rng dc pc pm psize
          (GA.runGAIter rng dc pc pm psize n s0)))) := by
  constructor
  · have hj : j = i + (j - i) := by omega
    rw [hj, GA.runGAIter_add]
    exact GA.runGAIter_mono rng dc pc pm psize (j - i) _
  · exact (GA.runGAStep_gbF rng dc pc pm psize _).2

/-- Claim C2, witness: the monotonicity and update characterization at a
concrete state and generation pair. -/
theorem claim2_witness :
    0 ≤ 1 ∧
    (Fitness.le (GA.runGAIter czero 1 (4/5) (1/10) 2 0
        ⟨[⟨0, [0], 0, [0]⟩], .negInf, [0], 0⟩).gbF
      (GA.runGAIter czero 1 (4/5) (1/10) 2 1
        ⟨[⟨0, [0], 0, [0]⟩], .negInf, [0], 0⟩).gbF ∧
    ((GA.runGAStep czero 1 (4/5) (1/10) 2
        (GA.runGAIter czero 1 (4/5) (1/10) 2 0
          ⟨[⟨0, [0], 0, [0]⟩], .negInf, [0], 0⟩)).gbF ≠
        (GA.runGAIter czero 1 (4/5) (1/10) 2 0
          ⟨[⟨0, [0], 0, [0]⟩], .negInf, [0], 0⟩).gbF ↔
      Fitness.lt (GA.runGAIter czero 1 (4/5) (1/10) 2 0
          ⟨[⟨0, [0], 0, [0]⟩], .negInf, [0], 0⟩).gbF
        (.fin (GA.bestObserved czero 1 (4/5) (1/10) 2
          (GA.runGAIter czero 1 (4/5) (1/10) 2 0
            ⟨[⟨0, [0], 0, [0]⟩], .negInf, [0], 0⟩))))) :=
  ⟨by norm_num,
   claim2_theorem czero 1 (4/5) (1/10) 2 ⟨[⟨0, [0], 0, [0]⟩], .negInf, [0], 0⟩
     0 1 0 (by norm_num)⟩

/-- Claim C3: under the swarm driver, for every individual and every
position-update pass, the stored fitness after the pass is never strictly
greater (never worse, lower-is-better) than before it, and the individual
changes at all only when the freshly computed fitness of the proposal
strictly improves on its current fitness. -/
theorem claim3_theorem (rng : ℕ → ℚ) (k : ℕ) (pop : List Choa.Chimp)
    (tc : ℕ) (wc : ℤ) (co : Choa.Coefficients) (A B C D : Choa.Chimp)
    (tasks : List Choa.Task) (i : ℕ) (hi : i < pop.length) :
    Fitness.le
      (((Choa.updatePositions rng k pop tc wc co A B C D tasks).1.getD i
        default).fitness)
      ((pop.getD i default).fitness) ∧
    (((Choa.updatePositions rng k pop tc wc co A B C D tasks).1.getD i
        default) ≠ pop.getD i default →
      Fitness.lt
        (((Choa.updatePositions rng k pop tc wc co A B C D tasks).1.getD i
          default).fitness)
        ((pop.getD i default).fitness)) := by
  rw [Choa.updatePositions_getD rng k pop tc wc co A B C D tasks hi]
  exact Choa.updateChimp_greedy rng _ co tc wc _ _ _ _ tasks _

/-- Claim C3, witness: the greedy-acceptance invariant at a concrete
population, coefficients and leaders. -/
theorem claim3_witness :
    0 < ([⟨[some 0], .fin 2⟩] : List Choa.Chimp).length ∧
    (Fitness.le
      (((Choa.updatePositions czero 0 [⟨[some 0], .fin 2⟩] 1 1
          ⟨2, 1, 1, 1, 1, 1, 1, 1, 1⟩ ⟨[some 0], .fin 2⟩ ⟨[], .inf⟩ ⟨[], .inf⟩
          ⟨[], .inf⟩ [⟨"ringan"⟩]).1.getD 0 default).fitness)
      ((([⟨[some 0], .fin 2⟩] : List Choa.Chimp).getD 0 default).fitness) ∧
    (((Choa.updatePositions czero 0 [⟨[some 0], .fin 2⟩] 1 1
          ⟨2, 1, 1, 1, 1, 1, 1, 1, 1⟩ ⟨[some 0], .fin 2⟩ ⟨[], .inf⟩ ⟨[], .inf⟩
          ⟨[], .inf⟩ [⟨"ringan"⟩]).1.getD 0 default) ≠
        ([⟨[some 0], .fin 2⟩] : List Choa.Chimp).getD 0 default →
      Fitness.lt
        (((Choa.updatePositions czero 0 [⟨[some 0], .fin 2⟩] 1 1
            ⟨2, 1, 1, 1, 1, 1, 1, 1, 1⟩ ⟨[some 0], .fin 2⟩ ⟨[], .inf⟩
            ⟨[], .inf⟩ ⟨[], .inf⟩ [⟨"ringan"⟩]).1.getD 0 default).fitness)
        ((([⟨[some 0], .fin 2⟩] : List Choa.Chimp).getD 0 default).fitness))) :=
  ⟨by norm_num,
   claim3_theorem czero 0 [⟨[some 0], .fin 2⟩] 1 1 ⟨2, 1, 1, 1, 1, 1, 1, 1, 1⟩
     ⟨[some 0], .fin 2⟩ ⟨[], .inf⟩ ⟨[], .inf⟩ ⟨[], .inf⟩ [⟨"ringan"⟩] 0
     (by norm_num)⟩

/-- Claim C4, counterexample: in the GA module the opposition operation applied
to gene `0` (with `datacenterCount = 1`) yields `8`, and `8 + 0` is not
`workerCount − 1` for the perfectly valid worker count `2` — the GA opposite is
taken inside the fixed 9-wide datacenter window, independent of the worker
count. -/
theorem claim4_counterexample :
    GA.generateOppositeChromosome 1 [0] = [8] ∧ ¬ ((8 : ℤ) + 0 = 2 - 1) := by
  constructor
  · decide
  · decide

/-- Claim C4, amended: the swarm driver's opposition (`oppositeChromosome`, the
gene-wise map underlying `applyOBL`) does satisfy `opposite_g + g =
workerCount − 1` at every defined gene; the GA module's
`generateOppositeChromosome` instead mirrors inside the datacenter window
`[(dc−1)·9, dc·9)`, so its genes satisfy `opposite_g + g = 18·dc − 10`, which
is not `workerCount − 1` in general. -/
theorem claim4_theorem (wc dc : ℤ) :
    (∀ (chrom : List Choa.Gene) (i : ℕ) (g : ℤ),
      chrom.get? i = some (some g) →
      ∃ og : ℤ, (Choa.oppositeChromosome wc chrom).get? i = some (some og) ∧
        og + g = wc - 1) ∧
    (∀ (genes : List ℤ) (i : ℕ) (v : ℤ), genes.get? i = some v →
      ∃ ov : ℤ, (GA.generateOppositeChromosome dc genes).get? i = some ov ∧
        ov + v = 18 * dc - 10) := by
  constructor
  · intro chrom i g h
    exact ⟨wc - 1 - g, Choa.oppositeChromosome_get? wc chrom i g h, by ring⟩
  · intro genes i v h
    refine ⟨(dc * 9 - 1) + (dc - 1) * 9 - v,
      GA.generateOppositeChromosome_get? dc genes i v h, by ring⟩

/-- Claim C4, witness: both mirror identities at concrete chromosomes. -/
theorem claim4_witness :
    (([some 0] : List Choa.Gene).get? 0 = some (some 0) ∧
      ∃ og : ℤ, (Choa.oppositeChromosome 2 [some 0]).get? 0 = some (some og) ∧
        og + 0 = 2 - 1) ∧
    (([0] : List ℤ).get? 0 = some 0 ∧
      ∃ ov : ℤ, (GA.generateOppositeChromosome 1 [0]).get? 0 = some ov ∧
        ov + 0 = 18 * 1 - 10) :=
  ⟨⟨rfl, (claim4_theorem 2 1).1 [some 0] 0 0 rfl⟩,
   ⟨rfl, (claim4_theorem 2 1).2 [0] 0 0 rfl⟩⟩

/-- Claim C5, counterexample: `calculateFitness` receives no worker-rate data
at all — the execution time is `10000 / WEIGHT_TO_MIPS[task.weight]`, derived
from the task's weight, not from any worker processing rate.  No per-worker
rate assignment can reproduce its values: on the single chromosome `[0]` the
spec-modelled formula gives the same number for a `"ringan"` task list and a
`"berat"` one (both assign task 0 to worker 0), while the code yields
`1631/10` and `753/5` respectively. -/
theorem claim5_counterexample :
    ¬ ∃ rate : ℤ → ℚ,
      Choa.calculateFitness [some 0] [⟨"ringan"⟩] =
        .fin (Choa.specWorkerRateFitness rate [0] [⟨"ringan"⟩]) ∧
      Choa.calculateFitness [some 0] [⟨"berat"⟩] =
        .fin (Choa.specWorkerRateFitness rate [0] [⟨"berat"⟩]) := by
  rintro ⟨rate, h1, h2⟩
  have hc1 : Choa.calculateFitness [some 0] [⟨"ringan"⟩] = .fin (1631/10) := by
    decide
  have hc2 : Choa.calculateFitness [some 0] [⟨"berat"⟩] = .fin (753/5) := by
    decide
  have heq : Choa.specWorkerRateFitness rate [0] [⟨"ringan"⟩] =
      Choa.specWorkerRateFitness rate [0] [⟨"berat"⟩] := rfl
  rw [hc1] at h1
  rw [hc2, ← heq] at h2
  have : (1631 / 10 : ℚ) = 753 / 5 := by
    have h3 := h1.trans h2.symm
    exact Fitness.fin.injEq _ _ ▸ h3 ▸ rfl
  norm_num at this

/-- Claim C5, amended: for every chromosome and task list, `calculateFitness`
equals the closed form in which task `i` contributes execution time
`10000 / WEIGHT_TO_MIPS[tasks[i].weight]` (400/500/600 by weight, default 500)
to the load of worker `gene_i` (out-of-range positions read as gene `0` via
`getD`), the makespan is the maximum load over workers that received at least
one task (empty workers excluded), the total cost sums
`exec·0.5 + 512·0.05 + 1000·0.1` per task, and the result is
`makespan + totalCost` (with `-Infinity` for an empty task list). -/
theorem claim5_theorem (chrom : List Choa.Gene) (tasks : List Choa.Task) :
    Choa.calculateFitness chrom tasks = Choa.fitnessClosedForm chrom tasks :=
  Choa.calc_eq_closed chrom tasks

/-- Claim C6, counterexample: on an empty task list the swarm driver does not
fail — it runs to completion and returns an assignment vector. -/
theorem claim6_counterexample :
    Choa.runChoaAlgorithmJs czero cpow 1 1 (some []) 0 1 true =
      .ok [some 0] := by
  show Except.ok (Choa.runChoaAlgorithm czero cpow 1 1 [] 0 1 true) =
    Except.ok [some 0]
  exact congrArg Except.ok (by decide)

/-- Claim C6, amended: there is no input validation.  A missing /
non-sequence `tasks` value crashes with an uncaught
`TypeError: tasks.forEach is not a function` (raised at the first fitness
evaluation, i.e. after the initial population has already been created, not
before any population work); any sequence value — including the empty one —
never errors: the run completes and returns a vector of length `taskCount`. -/
theorem claim6_theorem :
    (∀ (rng pow13 : ℕ → ℚ) (tc : ℕ) (wc : ℤ) (iterations psize : ℕ)
        (useOBL : Bool),
      Choa.runChoaAlgorithmJs rng pow13 tc wc none iterations psize useOBL =
        .error "TypeError: tasks.forEach is not a function") ∧
    (∀ (rng pow13 : ℕ → ℚ) (tc : ℕ) (wc : ℤ) (tasks : List Choa.Task)
        (iterations psize : ℕ) (useOBL : Bool), 0 < psize →
      ∃ v, Choa.runChoaAlgorithmJs rng pow13 tc wc (some tasks) iterations
          psize useOBL = .ok v ∧ v.length = tc) := by
  constructor
  · intro rng pow13 tc wc iterations psize useOBL
    rfl
  · intro rng pow13 tc wc tasks iterations psize useOBL hps
    exact ⟨Choa.runChoaAlgorithm rng pow13 tc wc tasks iterations psize useOBL,
      rfl, Choa.runChoa_length rng pow13 tc wc tasks iterations psize useOBL hps⟩

/-- Claim C6, witness: the error on a missing task list and the normal
completion on a present one, at concrete inputs. -/
theorem claim6_witness :
    (Choa.runChoaAlgorithmJs czero cpow 1 1 none 0 1 true =
      .error "TypeError: tasks.forEach is not a function") ∧
    0 < 1 ∧
    (∃ v, Choa.runChoaAlgorithmJs czero cpow 2 1 (some [⟨"ringan"⟩, ⟨"sedang"⟩])
        1 1 false = .ok v ∧ v.length = 2) := by
  refine ⟨claim6_theorem.1 czero cpow 1 1 0 1 true, by norm_num, ?_⟩
  exact claim6_theorem.2 czero cpow 2 1 [⟨"ringan"⟩, ⟨"sedang"⟩] 1 1 false
    (by norm_num)

/-- Claim C7: the raw `Chromosome` gene accessors perform no bounds check at
all.  On a chromosome of length 3, `getGene(5)` returns `undefined` (no
error, no value), and `setGene(5, 7)` silently extends the gene array to
length 6, filling the gap with holes — the code never raises the
out-of-range error the contract requires. -/
theorem claim7_theorem :
    GA.getGene [some 0, some 1, some 2] 5 = none ∧
    GA.setGene [some 0, some 1, some 2] 5 7 =
      [some 0, some 1, some 2, none, none, some 7] ∧
    (GA.setGene [some 0, some 1, some 2] 5 7).length = 6 := by
  refine ⟨rfl, by decide, by decide⟩

/-- Claim C8, counterexample: constructing a population with
`populationSize = 1` immediately yields 2 individuals, not 1 — the
constructor pushes every original together with its opposite and never
truncates back. -/
theorem claim8_counterexample :
    (GA.initializePopulation czero 0 1 1 1).length = 2 ∧ (2 : ℕ) ≠ 1 := by
  refine ⟨by decide, by decide⟩

/-- Claim C8, amended: `initializePopulation` always creates `2·N`
individuals (each original immediately followed by its opposition mirror;
there is no one-time merge-and-truncate step, the doubling is permanent in
the constructed population), while each GA generation step (`nextGeneration`,
elitist best plus `N−1` offspring, sorted and truncated) produces exactly `N`
individuals. -/
theorem claim8_theorem :
    (∀ (rng : ℕ → ℚ) (k psize tc : ℕ) (dc : ℤ),
      (GA.initializePopulation rng k psize tc dc).length = 2 * psize) ∧
    (∀ (rng : ℕ → ℚ) (dc : ℤ) (pc pm : ℚ) (psize : ℕ) (pop : List GA.Chrom)
        (k : ℕ), 1 ≤ psize →
      (GA.nextGeneration rng dc pc pm psize pop k).1.length = psize) := by
  constructor
  · intro rng k psize tc dc
    exact GA.initializePopulation_length rng k psize tc dc
  · intro rng dc pc pm psize pop k h
    exact GA.nextGeneration_length rng dc pc pm psize pop k h

/-- Claim C8, witness: both population counts at concrete inputs. -/
theorem claim8_witness :
    (GA.initializePopulation czero 0 2 1 1).length = 2 * 2 ∧
    (1 ≤ 1 ∧
      (GA.nextGeneration czero 1 (4/5) (1/10) 1 [] 0).1.length = 1) :=
  ⟨claim8_theorem.1 czero 0 2 1 1, by norm_num,
   claim8_theorem.2 czero 1 (4/5) (1/10) 1 [] 0 (by norm_num)⟩

/-- Claim C9: under the GA load-balance fitness, a chromosome assigning every
task to one single worker has `maxLoad = minLoad`, hence fitness
`1 / (max − min + 1) = 1`; and `1` is the maximum value of `calcFitness` over
all non-empty gene lists, so a fully concentrated assignment is never ranked
strictly below any other assignment. -/
theorem claim9_theorem (n : ℕ) (w : ℤ) (hn : 1 ≤ n) :
    GA.calcFitness (List.replicate n w) = 1 ∧
    ∀ genes : List ℤ, genes ≠ [] →
      GA.calcFitness genes ≤ GA.calcFitness (List.replicate n w) := by
  refine ⟨GA.calcFitness_replicate hn w, ?_⟩
  intro genes h
  rw [GA.calcFitness_replicate hn w]
  exact GA.calcFitness_le_one h

/-- Claim C9, witness: the all-on-worker-0 chromosome of length 3 attains
fitness 1 and dominates the balanced chromosome `[0, 1]`. -/
theorem claim9_witness :
    1 ≤ 3 ∧ GA.calcFitness (List.replicate 3 (0 : ℤ)) = 1 ∧
    (([0, 1] : List ℤ) ≠ [] ∧
      GA.calcFitness [0, 1] ≤ GA.calcFitness (List.replicate 3 (0 : ℤ))) :=
  ⟨by norm_num, (claim9_theorem 3 0 (by norm_num)).1,
   by simp, (claim9_theorem 3 0 (by norm_num)).2 [0, 1] (by simp)⟩

/-- Claim C10: all comparisons in the single-pass leader re-ranking are
strict, so (first conjunct) an individual whose fitness exactly equals any
current leader's fitness (with the leaders consistently ordered) updates no
leader slot; and (second conjunct) when every population member has the same
fitness, the pass starting from the four sentinel leaders replaces only the
Attacker (with the first member), while Barrier, Chaser and Driver keep their
empty-chromosome, infinite-fitness sentinels. -/
theorem claim10_theorem (tasks : List Choa.Task) (b : Choa.Bests)
    (ind : Choa.Chimp) (rest : List Choa.Chimp)
    (hAB : Fitness.le b.attacker.fitness b.barrier.fitness)
    (hBC : Fitness.le b.barrier.fitness b.chaser.fitness)
    (hCD : Fitness.le b.chaser.fitness b.driver.fitness)
    (heq : Choa.calculateFitness ind.chromosome tasks = b.attacker.fitness ∨
      Choa.calculateFitness ind.chromosome tasks = b.barrier.fitness ∨
      Choa.calculateFitness ind.chromosome tasks = b.chaser.fitness ∨
      Choa.calculateFitness ind.chromosome tasks = b.driver.fitness)
    (hq : ∀ c ∈ rest, Choa.calculateFitness c.chromosome tasks =
      Choa.calculateFitness ind.chromosome tasks) :
    (Choa.evalOne tasks b ind).2 = b ∧
    (Choa.evaluateFitness tasks (ind :: rest)
      ⟨Choa.sentinelChimp, Choa.sentinelChimp, Choa.sentinelChimp,
        Choa.sentinelChimp⟩).2 =
      ⟨Choa.evalInd tasks ind, Choa.sentinelChimp, Choa.sentinelChimp,
        Choa.sentinelChimp⟩ :=
  ⟨Choa.evalOne_no_update tasks b ind hAB hBC hCD heq,
   Choa.evaluateFitness_all_equal tasks ind rest hq⟩

/-- Claim C10, witness: a concrete equal-fitness individual updates no slot,
and an all-equal two-member population leaves the three lower sentinels in
place. -/
theorem claim10_witness :
    (Choa.calculateFitness
        (Choa.Chimp.chromosome ⟨[some 0], .fin 0⟩) [⟨"ringan"⟩] =
      (Choa.Bests.attacker
        ⟨⟨[some 0], Choa.calculateFitness [some 0] [⟨"ringan"⟩]⟩, ⟨[], .inf⟩,
          ⟨[], .inf⟩, ⟨[], .inf⟩⟩).fitness) ∧
    (Choa.evalOne [⟨"ringan"⟩]
        ⟨⟨[some 0], Choa.calculateFitness [some 0] [⟨"ringan"⟩]⟩, ⟨[], .inf⟩,
          ⟨[], .inf⟩, ⟨[], .inf⟩⟩ ⟨[some 0], .fin 0⟩).2 =
      ⟨⟨[some 0], Choa.calculateFitness [some 0] [⟨"ringan"⟩]⟩, ⟨[], .inf⟩,
        ⟨[], .inf⟩, ⟨[], .inf⟩⟩ ∧
    (Choa.evaluateFitness [⟨"ringan"⟩]
        (⟨[some 0], .fin 0⟩ :: [⟨[some 0], .negInf⟩])
        ⟨Choa.sentinelChimp, Choa.sentinelChimp, Choa.sentinelChimp,
          Choa.sentinelChimp⟩).2 =
      ⟨Choa.evalInd [⟨"ringan"⟩] ⟨[some 0], .fin 0⟩, Choa.sentinelChimp,
        Choa.sentinelChimp, Choa.sentinelChimp⟩ := by
  have h := claim10_theorem [⟨"ringan"⟩]
    ⟨⟨[some 0], Choa.calculateFitness [some 0] [⟨"ringan"⟩]⟩, ⟨[], .inf⟩,
      ⟨[], .inf⟩, ⟨[], .inf⟩⟩ ⟨[some 0], .fin 0⟩ [⟨[some 0], .negInf⟩]
    (by decide) (by decide) (by decide) (Or.inl rfl)
    (by intro c hc; rw [List.mem_singleton] at hc; subst hc; rfl)
  exact ⟨rfl, h.1, h.2⟩
